import Mathlib

/-!
Mandelbrot zoom renderer: coordinator protocol, escape-time kernel, colour map

A shallow embedding of `mandelbrot_mpi.cpp` and `mandelbrot_serial.cpp`.

Conventions of the embedding:

* C++ `int` values are mathematical integers (`Int`); every property below is about
  executions in which no signed overflow (undefined in C++) takes place.
* C++ `double` values are exact rationals (`ℚ`); the zoom schedule, which takes a
  60th root, is stated over `ℝ`.
* Operations whose behaviour is undefined in C++ (division by zero, conversion of an
  out-of-range value to `unsigned char`, indexing past the end of a vector) or that
  throw (constructing a vector of negative size) return `none`.
* `worker_process` is run on the list of tag-0 messages delivered to it; each receive
  takes the oldest one.
* The MPI environment of `master_process` is explicit state: the list `in_flight`
  records which worker holds which frame, and a wildcard receive is a step that may
  deliver the completion of any worker appearing in it.
-/

namespace Mandelbrot

/-! ## Colour map -/

/-- The colour triple `struct RGB`; each channel is an `unsigned char`. -/
structure RGB where
  r : Nat
  g : Nat
  b : Nat
deriving DecidableEq, Repr

/-- The conversion `static_cast<unsigned char>(v)`: truncation toward zero, defined
only when the truncated value is representable, that is when `-1 < v < 256`. -/
def static_cast_uchar (v : ℚ) : Option Nat :=
  if -1 < v ∧ v < 256 then some (Int.toNat ⌊v⌋) else none

/-- Red channel expression `9 * (1 - t) * t * t * t * 255`. -/
def channel_r (t : ℚ) : ℚ := 9 * (1 - t) * t * t * t * 255

/-- Green channel expression `15 * (1 - t) * (1 - t) * t * t * 255`. -/
def channel_g (t : ℚ) : ℚ := 15 * (1 - t) * (1 - t) * t * t * 255

/-- Blue channel expression `8.5 * (1 - t) * (1 - t) * (1 - t) * t * 255`. -/
def channel_b (t : ℚ) : ℚ := 17 / 2 * (1 - t) * (1 - t) * (1 - t) * t * 255

/-- The function `get_color(iterations, max_iterations)`. The sentinel test comes
first; past it the quotient `iterations / max_iterations` is formed, which is
undefined for a zero divisor. -/
def get_color (iterations max_iterations : Int) : Option RGB :=
  if iterations = max_iterations then
    some ⟨0, 0, 0⟩
  else if max_iterations = 0 then
    none
  else
    let t : ℚ := (iterations : ℚ) / (max_iterations : ℚ)
    match static_cast_uchar (channel_r t), static_cast_uchar (channel_g t),
        static_cast_uchar (channel_b t) with
    | some r, some g, some b => some ⟨r, g, b⟩
    | _, _, _ => none

/-- The statements of `get_color` that follow the sentinel test: the quotient and the
three channel conversions. -/
def gradient_color (iterations max_iterations : Int) : Option RGB :=
  if max_iterations = 0 then
    none
  else
    let t : ℚ := (iterations : ℚ) / (max_iterations : ℚ)
    match static_cast_uchar (channel_r t), static_cast_uchar (channel_g t),
        static_cast_uchar (channel_b t) with
    | some r, some g, some b => some ⟨r, g, b⟩
    | _, _, _ => none

/-! ## Escape-time kernel -/

/-- One execution of the body of the `while` loop of `mandelbrot_iterations`
on the pair `(zx, zy)`. -/
def mandelbrot_body (cx cy : ℚ) (z : ℚ × ℚ) : ℚ × ℚ :=
  (z.1 * z.1 - z.2 * z.2 + cx, 2 * z.1 * z.2 + cy)

/-- The `while` loop of `mandelbrot_iterations` from the state `(zx, zy, iter)`;
the first argument bounds the number of iterations unrolled. It returns the state in
which the loop stopped. -/
def mandelbrot_loop (cx cy : ℚ) (max_iter : Int) : Nat → ℚ × ℚ → Int → (ℚ × ℚ) × Int
  | 0, z, iter => (z, iter)
  | fuel + 1, z, iter =>
    if z.1 * z.1 + z.2 * z.2 ≤ 4 ∧ iter < max_iter then
      mandelbrot_loop cx cy max_iter fuel (mandelbrot_body cx cy z) (iter + 1)
    else
      (z, iter)

/-- The function `mandelbrot_iterations(cx, cy, max_iter)`: the loop started at
`zx = zy = 0`, `iter = 0`, unrolled `max_iter` times. -/
def mandelbrot_iterations (cx cy : ℚ) (max_iter : Int) : Int :=
  (mandelbrot_loop cx cy max_iter max_iter.toNat (0, 0) 0).2

/-- The orbit of `0` under `z ↦ z² + c`: the pair `(zx, zy)` after `k` loop bodies. -/
def orbit (cx cy : ℚ) : Nat → ℚ × ℚ
  | 0 => (0, 0)
  | k + 1 => mandelbrot_body cx cy (orbit cx cy k)

/-- Squared magnitude `zx * zx + zy * zy` tested by the loop condition. -/
def norm_sq (z : ℚ × ℚ) : ℚ := z.1 * z.1 + z.2 * z.2

/-! ## Frame renderer -/

/-- The assignment `pixels[idx] = c`; writing past the end of the vector is undefined. -/
def store_pixel (pixels : List RGB) (idx : Int) (c : RGB) : Option (List RGB) :=
  if 0 ≤ idx ∧ idx < pixels.length then some (pixels.set idx.toNat c) else none

/-- Body of the inner loop of `generate_frame` for the pixel `(px, py)`. -/
def render_pixel (n_max : Int) (x_min y_min : ℚ) (nx : Int) (pixel_size : ℚ)
    (py : Nat) (pixels : List RGB) (px : Nat) : Option (List RGB) :=
  let cx : ℚ := x_min + (px : ℚ) * pixel_size
  let cy : ℚ := y_min + (py : ℚ) * pixel_size
  let iterations := mandelbrot_iterations cx cy n_max
  match get_color iterations n_max with
  | none => none
  | some c => store_pixel pixels ((py : Int) * nx + (px : Int)) c

/-- Inner loop `for (px = 0; px < nx; ++px)` of `generate_frame` on row `py`. -/
def render_row (n_max : Int) (x_min y_min : ℚ) (nx : Int) (pixel_size : ℚ)
    (pixels : List RGB) (py : Nat) : Option (List RGB) :=
  (List.range nx.toNat).foldlM (render_pixel n_max x_min y_min nx pixel_size py) pixels

/-- The function `generate_frame` of `mandelbrot_mpi.cpp`, which fills the
caller-supplied vector `pixels` in place; the result is the vector afterwards. -/
def generate_frame (n_max : Int) (x_center y_center : ℚ) (nx ny : Int) (pixel_size : ℚ)
    (pixels : List RGB) : Option (List RGB) :=
  let x_min : ℚ := x_center - ((nx : ℚ) / 2) * pixel_size
  let y_min : ℚ := y_center - ((ny : ℚ) / 2) * pixel_size
  (List.range ny.toNat).foldlM (render_row n_max x_min y_min nx pixel_size) pixels

/-- The vector `std::vector<RGB> pixels(n)`: `n` value-initialised entries. -/
def fresh_pixels (n : Int) : List RGB := List.replicate n.toNat ⟨0, 0, 0⟩

/-! ## Zoom schedule -/

/-- The expression `init_pixel_size / std::pow(zoom_per_frame, frame - 1)` computed in
`worker_process` and in both `main` loops. -/
def current_pixel_size {α : Type} [DivisionRing α] (init_pixel_size zoom_per_frame : α)
    (frame : Int) : α :=
  init_pixel_size / zoom_per_frame ^ (frame - 1)

/-- The construction `std::vector<RGB> pixels(n)` with `n` an `int`: a negative `n`
converts to a size no vector can have and the constructor throws. -/
def alloc_pixels (n : Int) : Option (List RGB) :=
  if 0 ≤ n then some (fresh_pixels n) else none

/-- The loop `for (frame = 1; frame <= n_frames; ++frame)` of `main` in
`mandelbrot_mpi.cpp`, taken when `size == 1`: one vector `pixels(nx * ny)` is allocated
and every frame is rendered into it. The result lists the contents of the vector after
each frame, in frame order. -/
def main_single_process (n_max : Int) (x_center y_center : ℚ) (nx ny : Int)
    (init_pixel_size zoom_per_frame : ℚ) (n_frames : Int) : Option (List (List RGB)) :=
  match alloc_pixels (nx * ny) with
  | none => none
  | some pixels =>
    ((List.range n_frames.toNat).foldlM
      (fun (acc : List RGB × List (List RGB)) (i : Nat) =>
        match generate_frame n_max x_center y_center nx ny
            (current_pixel_size init_pixel_size zoom_per_frame ((i : Int) + 1)) acc.1 with
        | none => none
        | some out => some (out, acc.2 ++ [out]))
      (pixels, [])).map Prod.snd

/-- The function `generate_frame` of `mandelbrot_serial.cpp`: it allocates its own vector
`pixels(nx * ny)` and fills it with the same two loops; the result is that vector, which
the function hands to `write_ppm` when `store_images` is set. -/
def serial_generate_frame (n_max : Int) (x_center y_center : ℚ) (nx ny : Int)
    (pixel_size : ℚ) : Option (List RGB) :=
  match alloc_pixels (nx * ny) with
  | none => none
  | some pixels =>
    let x_min : ℚ := x_center - ((nx : ℚ) / 2) * pixel_size
    let y_min : ℚ := y_center - ((ny : ℚ) / 2) * pixel_size
    (List.range ny.toNat).foldlM
      (fun (rows : List RGB) (py : Nat) =>
        (List.range nx.toNat).foldlM
          (fun (row : List RGB) (px : Nat) =>
            let cx : ℚ := x_min + (px : ℚ) * pixel_size
            let cy : ℚ := y_min + (py : ℚ) * pixel_size
            let iterations := mandelbrot_iterations cx cy n_max
            match get_color iterations n_max with
            | none => none
            | some c => store_pixel row ((py : Int) * nx + (px : Int)) c)
          rows)
      pixels

/-- The loop `for (frame = 1; frame <= n_frames; ++frame)` of `main` in
`mandelbrot_serial.cpp`. The result lists the vector rendered for each frame, in frame
order. -/
def serial_main (n_max : Int) (x_center y_center : ℚ) (nx ny : Int)
    (init_pixel_size zoom_per_frame : ℚ) (n_frames : Int) : Option (List (List RGB)) :=
  (List.range n_frames.toNat).foldlM
    (fun (acc : List (List RGB)) (i : Nat) =>
      match serial_generate_frame n_max x_center y_center nx ny
          (current_pixel_size init_pixel_size zoom_per_frame ((i : Int) + 1)) with
      | none => none
      | some out => some (acc ++ [out]))
    []

/-! ## Worker -/

/-- A message sent by `worker_process` to rank 0: the completion notice (tag 1) carrying
a frame number, or the pixel payload (tag 2). -/
inductive WorkerMsg where
  | completion (frame_num : Int)
  | pixel_data (pixels : List RGB)
deriving DecidableEq, Repr

/-- Outcome of `worker_process` on the tag-0 messages delivered to it: what it sent, in
order; the contents of its vector; the delivered messages it never received; and whether
it left its loop (`false` when it is blocked in `MPI_Recv` with nothing delivered). -/
structure WorkerResult where
  sent : List WorkerMsg
  pixels : List RGB
  unread : List Int
  terminated : Bool
deriving DecidableEq, Repr

/-- The messages sent for one rendered frame: the completion notice, then the pixel
payload when `store_images` is set. -/
def worker_report (store_images : Bool) (frame_num : Int) (pixels : List RGB) :
    List WorkerMsg :=
  WorkerMsg.completion frame_num ::
    (if store_images then [WorkerMsg.pixel_data pixels] else [])

/-- The loop `while (true)` of `worker_process`. Each `MPI_Recv` takes the oldest
delivered task message; the arguments after the task list are the current contents of
the vector `pixels` and the messages sent so far. -/
def worker_loop (n_max : Int) (x_center y_center : ℚ) (nx ny : Int)
    (init_pixel_size zoom_per_frame : ℚ) (store_images : Bool) :
    List Int → List RGB → List WorkerMsg → Option WorkerResult
  | [], pixels, sent => some ⟨sent, pixels, [], false⟩
  | frame_num :: rest, pixels, sent =>
    if frame_num = -1 then
      some ⟨sent, pixels, rest, true⟩
    else
      match generate_frame n_max x_center y_center nx ny
          (current_pixel_size init_pixel_size zoom_per_frame frame_num) pixels with
      | none => none
      | some out =>
        worker_loop n_max x_center y_center nx ny init_pixel_size zoom_per_frame
          store_images rest out (sent ++ worker_report store_images frame_num out)

/-- The function `worker_process` run on the task messages `tasks` delivered to it. -/
def worker_process (n_max : Int) (x_center y_center : ℚ) (nx ny : Int)
    (init_pixel_size zoom_per_frame : ℚ) (store_images : Bool) (tasks : List Int) :
    Option WorkerResult :=
  match alloc_pixels (nx * ny) with
  | none => none
  | some pixels =>
    worker_loop n_max x_center y_center nx ny init_pixel_size zoom_per_frame store_images
      tasks pixels []

/-! ## Zoom schedule over the reals -/

/-- The expression `std::pow(zoom_per_second, 1.0 / 60.0)` of `main`, over the reals. -/
noncomputable def zoom_per_frame (zoom_per_second : ℝ) : ℝ :=
  zoom_per_second ^ ((1 : ℝ) / 60)

/-! ## Coordinator -/

/-- State of `master_process` together with its message environment.
`sent` lists every tag-0 message (destination, payload), oldest first; `received`
lists the `frame_done` value of every tag-1 receive, oldest first; `in_flight` lists
the (worker, frame) assignments delivered to workers and not yet reported back. -/
structure MasterState where
  next_frame : Int
  completed_frames : Int
  sent : List (Int × Int)
  received : List Int
  in_flight : List (Int × Int)
deriving DecidableEq, Repr

/-- The call `MPI_Send(&payload, 1, MPI_INT, dest, 0, MPI_COMM_WORLD)`. A worker that
is handed anything but the sentinel `-1` renders it and will report it back; on `-1`
it leaves its loop. -/
def mpi_send_task (s : MasterState) (dest payload : Int) : MasterState :=
  { s with
    sent := s.sent ++ [(dest, payload)]
    in_flight := if payload = -1 then s.in_flight else s.in_flight ++ [(dest, payload)] }

/-- State at entry of `master_process`: `next_frame = 1`, `completed_frames = 0`. -/
def master_init : MasterState :=
  { next_frame := 1, completed_frames := 0, sent := [], received := [], in_flight := [] }

/-- The priming loop
`for (worker = 1; worker <= num_workers && next_frame <= n_frames; ++worker)`;
the first argument bounds the number of iterations unrolled. -/
def prime_loop (n_frames num_workers : Int) : Nat → Int → MasterState → MasterState
  | 0, _, s => s
  | fuel + 1, worker, s =>
    if worker ≤ num_workers ∧ s.next_frame ≤ n_frames then
      prime_loop n_frames num_workers fuel (worker + 1)
        { mpi_send_task s worker s.next_frame with next_frame := s.next_frame + 1 }
    else
      s

/-- State of `master_process` when the priming loop has finished. -/
def master_primed (n_frames num_workers : Int) : MasterState :=
  prime_loop n_frames num_workers num_workers.toNat 1 master_init

/-- The wildcard receive `MPI_Recv(&frame_done, ..., MPI_ANY_SOURCE, 1, ...)` delivering
the report of worker `source`: that worker's oldest outstanding frame. It is `none`
when `source` holds no frame, since such a worker sends nothing. -/
def mpi_recv_completion (s : MasterState) (source : Int) : Option (Int × MasterState) :=
  match s.in_flight.find? (fun p => p.1 = source) with
  | none => none
  | some p =>
    some (p.2, { s with received := s.received ++ [p.2], in_flight := s.in_flight.erase p })

/-- The part of the `while` body after the receive: count the completion, then send
the next frame or the termination signal to the worker that reported. -/
def master_reply (n_frames : Int) (s : MasterState) (worker : Int) : MasterState :=
  let s1 := { s with completed_frames := s.completed_frames + 1 }
  if s1.next_frame ≤ n_frames then
    { mpi_send_task s1 worker s1.next_frame with next_frame := s1.next_frame + 1 }
  else
    mpi_send_task s1 worker (-1)

/-- One iteration of `while (completed_frames < n_frames)` in which the receive
delivers the report of worker `source`. It is `none` when the loop has ended or the
receive cannot come from `source`. The tag-2 receive of the pixel payload, the file
written from it and the progress line touch none of the variables kept here. -/
def master_step (n_frames : Int) (s : MasterState) (source : Int) : Option MasterState :=
  if s.completed_frames < n_frames then
    match mpi_recv_completion s source with
    | none => none
    | some (_, s1) => some (master_reply n_frames s1 source)
  else
    none

/-- The run of `master_process` in which the successive receives come from the
workers listed in `order`. -/
def master_run (n_frames num_workers : Int) (order : List Int) : Option MasterState :=
  order.foldlM (master_step n_frames) (master_primed n_frames num_workers)

/-- The loop `while (completed_frames < n_frames)` has ended. -/
def master_done (n_frames : Int) (s : MasterState) : Prop :=
  ¬ s.completed_frames < n_frames

instance (n_frames : Int) (s : MasterState) : Decidable (master_done n_frames s) := by
  unfold master_done; infer_instance

/-- Frame indices sent as assignments, in send order: the tag-0 payloads other than `-1`. -/
def assignments (s : MasterState) : List Int :=
  (s.sent.map Prod.snd).filter (fun v => v ≠ -1)

/-- Number of termination sentinels `-1` sent. -/
def sentinels (s : MasterState) : Nat :=
  (s.sent.map Prod.snd).count (-1)

/-- The list `1, 2, ..., k`. -/
def frames_upto (k : Nat) : List Int :=
  (List.range k).map (fun (i : Nat) => (i : Int) + 1)

/-- Bounded concurrency in state `s`: the frames assigned and not yet reported are at
most `num_workers`, they are exactly the frames the workers hold, and no worker holds
two of them. -/
def in_flight_bounded (num_workers : Int) (s : MasterState) : Prop :=
  ((assignments s).length : Int) - (s.received.length : Int) ≤ num_workers ∧
    (s.received ++ s.in_flight.map Prod.snd).Perm (assignments s) ∧
    ∀ w : Int, (s.in_flight.map Prod.fst).count w ≤ 1

/-! ## Coordinator: invariants of the protocol -/

/-- State reached by the priming loop after `j` sends: workers `1..j` hold frames `1..j`. -/
def primed_state (j : Nat) : MasterState :=
  { next_frame := (j : Int) + 1
    completed_frames := 0
    sent := (List.range j).map (fun (i : Nat) => ((i : Int) + 1, (i : Int) + 1))
    received := []
    in_flight := (List.range j).map (fun (i : Nat) => ((i : Int) + 1, (i : Int) + 1)) }

/-- Invariant of `master_process` from the end of priming on; `k` is the number of
frames assigned so far. -/
structure MasterInv (n_frames num_workers : Int) (s : MasterState) (k : Nat) : Prop where
  next : s.next_frame = (k : Int) + 1
  le : (k : Int) ≤ n_frames
  assigned : assignments s = frames_upto k
  perm : (s.received ++ s.in_flight.map Prod.snd).Perm (frames_upto k)
  completed : s.completed_frames = (s.received.length : Int)
  nodup : (s.in_flight.map Prod.fst).Nodup
  workers : ∀ p ∈ s.in_flight, 1 ≤ p.1 ∧ p.1 ≤ num_workers
  account : ((sentinels s + s.in_flight.length : Nat) : Int) = min num_workers n_frames
  drained : 0 < sentinels s → (k : Int) = n_frames

theorem frames_upto_succ (k : Nat) : frames_upto (k + 1) = frames_upto k ++ [(k : Int) + 1] := by
  simp [frames_upto, List.range_succ]

theorem frames_upto_length (k : Nat) : (frames_upto k).length = k := by
  simp [frames_upto]

theorem frames_upto_pos (k : Nat) : ∀ v ∈ frames_upto k, (1 : Int) ≤ v := by
  intro v hv
  simp only [frames_upto, List.mem_map, List.mem_range] at hv
  obtain ⟨i, _, rfl⟩ := hv
  omega

theorem frames_upto_nodup (k : Nat) : (frames_upto k).Nodup := by
  unfold frames_upto
  refine (List.nodup_range k).map ?_
  intro a b h
  simp only [add_left_inj, Nat.cast_inj] at h
  exact h

theorem primed_state_succ (j : Nat) :
    ({ mpi_send_task (primed_state j) ((j : Int) + 1) (primed_state j).next_frame with
        next_frame := (primed_state j).next_frame + 1 } : MasterState) = primed_state (j + 1) := by
  have h : ((j : Int) + 1 = -1) = False := by
    simp only [eq_iff_iff, iff_false]; omega
  simp [primed_state, mpi_send_task, List.range_succ, h]

/-- Closed form of the priming loop: from the state after `j` sends, `fuel` further
iterations stop after `min (j + fuel) (min num_workers n_frames)` sends. -/
theorem prime_loop_spec (n_frames num_workers : Int) (fuel : Nat) :
    ∀ j : Nat, (j : Int) ≤ num_workers → (j : Int) ≤ n_frames →
      prime_loop n_frames num_workers fuel ((j : Int) + 1) (primed_state j)
        = primed_state (min (j + fuel) (min num_workers n_frames).toNat) := by
  induction fuel with
  | zero =>
    intro j hW hN
    have : min (j + 0) (min num_workers n_frames).toNat = j := by omega
    rw [this]; rfl
  | succ fuel ih =>
    intro j hW hN
    unfold prime_loop
    by_cases hc : (j : Int) + 1 ≤ num_workers ∧ (primed_state j).next_frame ≤ n_frames
    · rw [if_pos hc, primed_state_succ]
      have hc2 : (j : Int) + 1 ≤ n_frames := hc.2
      have := ih (j + 1) (by push_cast; exact hc.1) (by push_cast; exact hc2)
      push_cast at this
      rw [this]
      congr 1
      omega
    · rw [if_neg hc]
      have hn : (primed_state j).next_frame = (j : Int) + 1 := rfl
      rw [hn] at hc
      have : min (j + (fuel + 1)) (min num_workers n_frames).toNat = j := by omega
      rw [this]

theorem master_primed_eq (n_frames num_workers : Int) (hN : 0 ≤ n_frames)
    (hW : 0 ≤ num_workers) :
    master_primed n_frames num_workers = primed_state (min num_workers n_frames).toNat := by
  have := prime_loop_spec n_frames num_workers num_workers.toNat 0 (by simpa using hW)
    (by simpa using hN)
  simp only [Nat.cast_zero, zero_add] at this
  unfold master_primed
  have h0 : master_init = primed_state 0 := rfl
  rw [h0, this]
  congr 1
  omega

theorem assignments_primed (j : Nat) : assignments (primed_state j) = frames_upto j := by
  unfold assignments primed_state frames_upto
  simp only [List.map_map]
  rw [List.filter_eq_self.mpr]
  · rfl
  · intro v hv
    simp only [List.mem_map, List.mem_range, Function.comp] at hv
    obtain ⟨i, _, rfl⟩ := hv
    simp only [ne_eq, decide_not, Bool.not_eq_true', decide_eq_false_iff_not]
    omega

theorem sentinels_primed (j : Nat) : sentinels (primed_state j) = 0 := by
  unfold sentinels primed_state
  simp only [List.map_map]
  apply List.count_eq_zero.mpr
  intro hv
  simp only [List.mem_map, List.mem_range, Function.comp] at hv
  obtain ⟨i, _, h⟩ := hv
  omega

theorem in_flight_primed_fst (j : Nat) :
    (primed_state j).in_flight.map Prod.fst = frames_upto j := by
  simp [primed_state, frames_upto, Function.comp_def]

theorem in_flight_primed_snd (j : Nat) :
    (primed_state j).in_flight.map Prod.snd = frames_upto j := by
  simp [primed_state, frames_upto, Function.comp_def]

/-- The invariant holds when the priming loop has finished. -/
theorem masterInv_primed (n_frames num_workers : Int) (hN : 1 ≤ n_frames)
    (hW : 1 ≤ num_workers) :
    MasterInv n_frames num_workers (master_primed n_frames num_workers)
      (min num_workers n_frames).toNat := by
  rw [master_primed_eq n_frames num_workers (by omega) (by omega)]
  set m := (min num_workers n_frames).toNat with hm
  refine ⟨rfl, by omega, assignments_primed m, ?_, rfl, ?_, ?_, ?_, ?_⟩
  · rw [in_flight_primed_snd]; exact List.Perm.refl _
  · rw [in_flight_primed_fst]; exact frames_upto_nodup m
  · intro p hp
    have h1 : p.1 ∈ (primed_state m).in_flight.map Prod.fst := List.mem_map_of_mem _ hp
    rw [in_flight_primed_fst] at h1
    simp only [frames_upto, List.mem_map, List.mem_range] at h1
    obtain ⟨i, hi, h⟩ := h1
    omega
  · rw [sentinels_primed]
    have : (primed_state m).in_flight.length = m := by simp [primed_state]
    rw [this]
    omega
  · rw [sentinels_primed]; intro h; omega

theorem assignments_send (s : MasterState) (dest payload : Int) :
    assignments (mpi_send_task s dest payload)
      = assignments s ++ (if payload = -1 then [] else [payload]) := by
  unfold assignments mpi_send_task
  by_cases h : payload = -1 <;> simp [h, List.filter_cons]

theorem sentinels_send (s : MasterState) (dest payload : Int) :
    sentinels (mpi_send_task s dest payload)
      = sentinels s + (if payload = -1 then 1 else 0) := by
  unfold sentinels mpi_send_task
  by_cases h : payload = -1
  · subst h; simp
  · have h2 : ¬ (-1 : Int) = payload := fun e => h e.symm
    simp [h, List.count_cons, h2]

/-- What a receive from `source` does to the state: it removes that worker's entry `p`
from `in_flight` and logs its frame. -/
theorem mpi_recv_completion_spec {s s1 : MasterState} {source f : Int}
    (h : mpi_recv_completion s source = some (f, s1)) :
    ∃ p, p ∈ s.in_flight ∧ p.1 = source ∧ p.2 = f ∧
      s1 = { s with received := s.received ++ [f], in_flight := s.in_flight.erase p } := by
  unfold mpi_recv_completion at h
  split at h
  · exact absurd h (by simp)
  · rename_i p hp
    have hmem := List.mem_of_find?_eq_some hp
    have hprop := List.find?_some hp
    simp only [decide_eq_true_eq] at hprop
    simp only [Option.some.injEq, Prod.mk.injEq] at h
    obtain ⟨h1, h2⟩ := h
    exact ⟨p, hmem, hprop, h1, by rw [← h2, h1]⟩

/-- Erasing a member and putting it in front permutes the list. -/
theorem perm_cons_erase_lawful {α : Type} [BEq α] [LawfulBEq α] {a : α} :
    ∀ {l : List α}, a ∈ l → l.Perm (a :: l.erase a)
  | [], h => absurd h (List.not_mem_nil a)
  | b :: t, h => by
    by_cases hb : b = a
    · subst hb
      simp
    · have hmem : a ∈ t := by
        rcases List.mem_cons.mp h with h1 | h1
        · exact absurd h1.symm hb
        · exact h1
      have hbeq : (b == a) = false := by simpa using hb
      rw [List.erase_cons, hbeq]
      simp only [Bool.false_eq_true, if_false]
      exact ((perm_cons_erase_lawful hmem).cons b).trans (List.Perm.swap a b _)

/-- The reply branch that hands out the next frame. -/
theorem master_reply_assign (n_frames : Int) (s : MasterState) (worker : Int)
    (h : s.next_frame ≤ n_frames) (hne : s.next_frame ≠ -1) :
    master_reply n_frames s worker =
      { next_frame := s.next_frame + 1
        completed_frames := s.completed_frames + 1
        sent := s.sent ++ [(worker, s.next_frame)]
        received := s.received
        in_flight := s.in_flight ++ [(worker, s.next_frame)] } := by
  simp [master_reply, mpi_send_task, h, hne]

/-- The reply branch that sends the termination signal. -/
theorem master_reply_terminate (n_frames : Int) (s : MasterState) (worker : Int)
    (h : ¬ s.next_frame ≤ n_frames) :
    master_reply n_frames s worker =
      { next_frame := s.next_frame
        completed_frames := s.completed_frames + 1
        sent := s.sent ++ [(worker, -1)]
        received := s.received
        in_flight := s.in_flight } := by
  simp [master_reply, mpi_send_task, h]

/-- Unfolding of one loop iteration into its receive and its reply. -/
theorem master_step_spec {n_frames : Int} {s s2 : MasterState} {source : Int}
    (h : master_step n_frames s source = some s2) :
    s.completed_frames < n_frames ∧
      ∃ f s1, mpi_recv_completion s source = some (f, s1) ∧
        s2 = master_reply n_frames s1 source := by
  unfold master_step at h
  split at h
  · rename_i hlt
    refine ⟨hlt, ?_⟩
    split at h
    · exact absurd h (by simp)
    · rename_i f s1 heq
      exact ⟨f, s1, heq, by simpa using h.symm⟩
  · exact absurd h (by simp)

/-- Every loop iteration preserves the invariant. -/
theorem masterInv_step {n_frames num_workers : Int} {s s2 : MasterState} {k : Nat}
    {source : Int} (hinv : MasterInv n_frames num_workers s k)
    (h : master_step n_frames s source = some s2) :
    ∃ k2, MasterInv n_frames num_workers s2 k2 := by
  obtain ⟨_, f, s1, hrecv, rfl⟩ := master_step_spec h
  obtain ⟨p, hp, hp1, hp2, hs1⟩ := mpi_recv_completion_spec hrecv
  have e1 : s1.next_frame = s.next_frame := by rw [hs1]
  have e2 : s1.completed_frames = s.completed_frames := by rw [hs1]
  have e3 : s1.sent = s.sent := by rw [hs1]
  have e4 : s1.received = s.received ++ [f] := by rw [hs1]
  have e5 : s1.in_flight = s.in_flight.erase p := by rw [hs1]
  clear hs1 hrecv h
  have hperm : s.in_flight.Perm (p :: s.in_flight.erase p) := perm_cons_erase_lawful hp
  have hnd := (hperm.map Prod.fst).nodup_iff.mp hinv.nodup
  rw [List.map_cons, List.nodup_cons] at hnd
  have hlen : (s.in_flight.erase p).length + 1 = s.in_flight.length := by
    have := hperm.length_eq
    simp only [List.length_cons] at this
    omega
  have hpermf : (s.received ++ [f] ++ (s.in_flight.erase p).map Prod.snd).Perm
      (frames_upto k) := by
    refine List.Perm.trans ?_ hinv.perm
    rw [List.append_assoc]
    refine List.Perm.append_left _ ?_
    have := (hperm.map Prod.snd).symm
    rw [List.map_cons, hp2] at this
    exact this
  have hw := hinv.workers p hp
  have hsub : ∀ q ∈ s.in_flight.erase p, 1 ≤ q.1 ∧ q.1 ≤ num_workers :=
    fun q hq => hinv.workers q (List.mem_of_mem_erase hq)
  have hacc := hinv.account
  have hnext := hinv.next
  have hasg : assignments s1 = frames_upto k := by
    have := hinv.assigned
    simp only [assignments] at this ⊢
    rw [e3]; exact this
  have hsen : sentinels s1 = sentinels s := by
    simp only [sentinels]; rw [e3]
  by_cases hnf : s1.next_frame ≤ n_frames
  · have hne : s1.next_frame ≠ -1 := by rw [e1, hnext]; omega
    rw [master_reply_assign n_frames s1 source hnf hne]
    have h1 := assignments_send s1 source s1.next_frame
    have h2 := sentinels_send s1 source s1.next_frame
    simp only [mpi_send_task, if_neg hne, add_zero] at h1 h2
    rw [e1] at hnf
    refine ⟨k + 1, ⟨?_, ?_, ?_, ?_, ?_, ?_, ?_, ?_, ?_⟩⟩
    · simp only [e1, hnext]; push_cast; ring
    · push_cast; omega
    · simp only [assignments] at h1 hasg ⊢
      rw [h1, hasg, frames_upto_succ, e1, hnext]
    · simp only [List.map_append, List.map_cons, List.map_nil, e4, e5, e1]
      rw [frames_upto_succ, ← List.append_assoc, hnext]
      exact List.Perm.append_right _ hpermf
    · simp only [e4, e2, List.length_append, List.length_singleton]
      rw [hinv.completed]; push_cast; ring
    · simp only [List.map_append, List.map_cons, List.map_nil, e5]
      rw [List.nodup_append]
      refine ⟨hnd.2, List.nodup_singleton _, ?_⟩
      intro a ha hb
      simp only [List.mem_singleton] at hb
      subst hb
      exact hnd.1 (hp1 ▸ ha)
    · intro q hq
      simp only [e5, List.mem_append, List.mem_singleton] at hq
      rcases hq with hq | rfl
      · exact hsub q hq
      · simpa [hp1] using hw
    · simp only [sentinels] at h2 hsen ⊢
      simp only [e5, List.length_append, List.length_singleton]
      rw [h2, hsen, ← hacc]
      simp only [sentinels]
      omega
    · intro hpos
      simp only [sentinels] at h2 hsen hpos
      rw [h2, hsen] at hpos
      have := hinv.drained hpos
      omega
  · rw [master_reply_terminate n_frames s1 source hnf]
    have h1 := assignments_send s1 source (-1)
    have h2 := sentinels_send s1 source (-1)
    simp only [mpi_send_task, if_true, List.append_nil] at h1 h2
    rw [e1] at hnf
    have hk : (k : Int) = n_frames := by have := hinv.le; omega
    refine ⟨k, ⟨by simp only [e1, hnext], hinv.le, ?_, ?_, ?_, ?_, ?_, ?_, fun _ => hk⟩⟩
    · simp only [assignments] at h1 hasg ⊢
      rw [h1, hasg]
    · simp only [e4, e5]; exact hpermf
    · simp only [e4, e2, List.length_append, List.length_singleton]
      rw [hinv.completed]; push_cast; ring
    · simp only [e5]; exact hnd.2
    · simp only [e5]; exact hsub
    · simp only [sentinels] at h2 hsen ⊢
      simp only [e5]
      rw [h2, hsen, ← hacc]
      simp only [sentinels]
      omega

theorem master_step_completed {n_frames : Int} {s s2 : MasterState} {source : Int}
    (h : master_step n_frames s source = some s2) :
    s2.completed_frames = s.completed_frames + 1 := by
  obtain ⟨_, f, s1, hrecv, rfl⟩ := master_step_spec h
  obtain ⟨p, _, _, _, hs1⟩ := mpi_recv_completion_spec hrecv
  have e2 : s1.completed_frames = s.completed_frames := by rw [hs1]
  rw [← e2]
  by_cases hnf : s1.next_frame ≤ n_frames <;> simp [master_reply, mpi_send_task, hnf]

/-- Invariants carried along any sequence of loop iterations. -/
theorem masterInv_foldlM {n_frames num_workers : Int} (order : List Int) :
    ∀ (s0 s : MasterState) (k0 : Nat), MasterInv n_frames num_workers s0 k0 →
      order.foldlM (master_step n_frames) s0 = some s →
      (∃ k, MasterInv n_frames num_workers s k) ∧
        s.completed_frames = s0.completed_frames + (order.length : Int) := by
  induction order with
  | nil =>
    intro s0 s k0 hinv h
    simp only [List.foldlM_nil, Option.pure_def, Option.some.injEq] at h
    subst h
    exact ⟨⟨k0, hinv⟩, by simp⟩
  | cons a t ih =>
    intro s0 s k0 hinv h
    rw [List.foldlM_cons] at h
    cases hstep : master_step n_frames s0 a with
    | none => rw [hstep] at h; exact absurd h (by simp)
    | some s1 =>
      rw [hstep] at h
      simp only [Option.bind_eq_bind, Option.some_bind] at h
      obtain ⟨k1, hinv1⟩ := masterInv_step hinv hstep
      obtain ⟨hk, hc⟩ := ih s1 s k1 hinv1 h
      refine ⟨hk, ?_⟩
      rw [hc, master_step_completed hstep]
      simp only [List.length_cons]; push_cast; ring

/-- The invariant holds in every state reached by a run. -/
theorem masterInv_run {n_frames num_workers : Int} (hN : 1 ≤ n_frames)
    (hW : 1 ≤ num_workers) {order : List Int} {s : MasterState}
    (h : master_run n_frames num_workers order = some s) :
    (∃ k, MasterInv n_frames num_workers s k) ∧ s.completed_frames = (order.length : Int) := by
  have := masterInv_foldlM order _ s _ (masterInv_primed n_frames num_workers hN hW) h
  have h0 : (master_primed n_frames num_workers).completed_frames = 0 := by
    rw [master_primed_eq n_frames num_workers (by omega) (by omega)]; rfl
  rw [h0, zero_add] at this
  exact this

theorem masterInv_lengths {n_frames num_workers : Int} {s : MasterState} {k : Nat}
    (hinv : MasterInv n_frames num_workers s k) :
    s.received.length + s.in_flight.length = k := by
  have := hinv.perm.length_eq
  simpa [frames_upto_length] using this

/-- When the loop has ended every frame has been assigned and reported. -/
theorem masterInv_done {n_frames num_workers : Int} {s : MasterState} {k : Nat}
    (hinv : MasterInv n_frames num_workers s k) (hdone : master_done n_frames s) :
    k = n_frames.toNat ∧ s.in_flight = [] := by
  have hl := masterInv_lengths hinv
  have hc := hinv.completed
  have hle := hinv.le
  unfold master_done at hdone
  have h0 : s.in_flight.length = 0 := by omega
  exact ⟨by omega, List.length_eq_zero.mp h0⟩

/-- While the loop runs some worker holds a frame, so a receive can be served. -/
theorem masterInv_progress {n_frames num_workers : Int} (hN : 1 ≤ n_frames)
    (hW : 1 ≤ num_workers) {s : MasterState} {k : Nat}
    (hinv : MasterInv n_frames num_workers s k) (hrun : ¬ master_done n_frames s) :
    ∃ source s2, master_step n_frames s source = some s2 := by
  unfold master_done at hrun
  simp only [not_not] at hrun
  have hl := masterInv_lengths hinv
  have hc := hinv.completed
  cases hfl : s.in_flight with
  | nil =>
    exfalso
    have hacc := hinv.account
    rw [hfl] at hacc hl
    simp only [List.length_nil, add_zero] at hacc hl
    have hpos : 0 < sentinels s := by omega
    have := hinv.drained hpos
    omega
  | cons p t =>
    refine ⟨p.1, master_reply n_frames
      { s with received := s.received ++ [p.2], in_flight := s.in_flight.erase p } p.1, ?_⟩
    unfold master_step
    rw [if_pos hrun]
    have hfind : s.in_flight.find? (fun q => q.1 = p.1) = some p := by
      rw [hfl]; simp
    simp only [mpi_recv_completion, hfind]

/-- Every run can be continued until the loop ends. -/
theorem master_run_extends {n_frames num_workers : Int} (hN : 1 ≤ n_frames)
    (hW : 1 ≤ num_workers) (n : Nat) :
    ∀ (order : List Int) (s : MasterState),
      master_run n_frames num_workers order = some s →
      n_frames - s.completed_frames ≤ (n : Int) →
      ∃ rest s2, master_run n_frames num_workers (order ++ rest) = some s2 ∧
        master_done n_frames s2 := by
  induction n with
  | zero =>
    intro order s h hle
    refine ⟨[], s, by simpa using h, ?_⟩
    unfold master_done; push_cast at hle; omega
  | succ n ih =>
    intro order s h hle
    by_cases hd : master_done n_frames s
    · exact ⟨[], s, by simpa using h, hd⟩
    · obtain ⟨⟨k, hinv⟩, _⟩ := masterInv_run hN hW h
      obtain ⟨source, s1, hstep⟩ := masterInv_progress hN hW hinv hd
      have h1 : master_run n_frames num_workers (order ++ [source]) = some s1 := by
        unfold master_run at h ⊢
        rw [List.foldlM_append, h]
        simp [hstep]
      have hc := master_step_completed hstep
      obtain ⟨rest, s2, hr, hdone⟩ := ih (order ++ [source]) s1 h1 (by push_cast at hle; omega)
      exact ⟨source :: rest, s2, by simpa using hr, hdone⟩

theorem in_flight_bounded_of_inv {n_frames num_workers : Int} {s : MasterState} {k : Nat}
    (hinv : MasterInv n_frames num_workers s k) : in_flight_bounded num_workers s := by
  have hl := masterInv_lengths hinv
  have hacc := hinv.account
  refine ⟨?_, ?_, fun w => List.nodup_iff_count_le_one.mp hinv.nodup w⟩
  · rw [hinv.assigned, frames_upto_length]
    have : ((sentinels s + s.in_flight.length : Nat) : Int) ≤ num_workers := by
      rw [hacc]; exact min_le_left _ _
    push_cast at this
    omega
  · rw [hinv.assigned]; exact hinv.perm

/-- Between the receive and the reply of a loop iteration the bound holds as well. -/
theorem in_flight_bounded_recv {n_frames num_workers : Int} {s s1 : MasterState} {k : Nat}
    {source f : Int} (hinv : MasterInv n_frames num_workers s k)
    (hrecv : mpi_recv_completion s source = some (f, s1)) :
    in_flight_bounded num_workers s1 := by
  obtain ⟨h0, h1, h2⟩ := in_flight_bounded_of_inv hinv
  obtain ⟨p, hp, hp1, hp2, hs1⟩ := mpi_recv_completion_spec hrecv
  have e3 : assignments s1 = assignments s := by rw [hs1]; rfl
  have e4 : s1.received = s.received ++ [f] := by rw [hs1]
  have e5 : s1.in_flight = s.in_flight.erase p := by rw [hs1]
  have hperm : s.in_flight.Perm (p :: s.in_flight.erase p) := perm_cons_erase_lawful hp
  have hnd := (hperm.map Prod.fst).nodup_iff.mp hinv.nodup
  rw [List.map_cons, List.nodup_cons] at hnd
  refine ⟨?_, ?_, ?_⟩
  · rw [e3, e4]
    simp only [List.length_append, List.length_singleton]
    push_cast
    omega
  · rw [e3, e4, e5]
    refine List.Perm.trans ?_ h1
    rw [List.append_assoc]
    refine List.Perm.append_left _ ?_
    have := (hperm.map Prod.snd).symm
    rw [List.map_cons, hp2] at this
    exact this
  · rw [e5]
    exact fun w => List.nodup_iff_count_le_one.mp hnd.2 w

/-- During priming the bound holds after every send. -/
theorem in_flight_bounded_priming (n_frames num_workers : Int) (hN : 1 ≤ n_frames)
    (hW : 1 ≤ num_workers) (fuel : Nat) :
    in_flight_bounded num_workers (prime_loop n_frames num_workers fuel 1 master_init) := by
  have h := prime_loop_spec n_frames num_workers fuel 0 (by simp; omega) (by simp; omega)
  simp only [Nat.cast_zero, zero_add] at h
  have h0 : master_init = primed_state 0 := rfl
  rw [h0, h]
  set j := min fuel (min num_workers n_frames).toNat with hj
  refine ⟨?_, ?_, ?_⟩
  · rw [assignments_primed, frames_upto_length]
    have : (primed_state j).received = [] := rfl
    rw [this]
    simp only [List.length_nil, Nat.cast_zero, sub_zero]
    omega
  · rw [assignments_primed, in_flight_primed_snd]
    exact List.Perm.refl _
  · rw [in_flight_primed_fst]
    exact fun w => List.nodup_iff_count_le_one.mp (frames_upto_nodup j) w

theorem length_filter_add_count (l : List Int) :
    l.length = (l.filter (fun v => v ≠ -1)).length + l.count (-1) := by
  induction l with
  | nil => simp
  | cons a t ih =>
    by_cases h : a = -1
    · subst h; simp [List.filter_cons] at ih ⊢; omega
    · have h2 : ¬ (-1 : Int) = a := fun e => h e.symm
      simp [List.filter_cons, List.count_cons, h, h2] at ih ⊢
      omega

theorem sent_length (s : MasterState) :
    s.sent.length = (assignments s).length + sentinels s := by
  unfold assignments sentinels
  rw [← length_filter_add_count, List.length_map]

/-- Number of sentinels and of tag-0 messages sent by a finished run. -/
theorem master_sentinels_min {n_frames num_workers : Int} (hN : 1 ≤ n_frames)
    (hW : 1 ≤ num_workers) {order : List Int} {s : MasterState}
    (hrun : master_run n_frames num_workers order = some s)
    (hdone : master_done n_frames s) :
    (sentinels s : Int) = min num_workers n_frames ∧
      (s.sent.length : Int) = n_frames + min num_workers n_frames := by
  obtain ⟨⟨k, hinv⟩, _⟩ := masterInv_run hN hW hrun
  obtain ⟨hk, hfl⟩ := masterInv_done hinv hdone
  have hacc := hinv.account
  rw [hfl] at hacc
  simp only [List.length_nil, add_zero] at hacc
  refine ⟨hacc, ?_⟩
  rw [sent_length, hinv.assigned, frames_upto_length]
  push_cast
  rw [hacc]
  omega

/-! ## Coordinator: the protocol claims -/

/-- C1. In every run of `master_process` with `n_frames ≥ 1` frames and
`num_workers ≥ 1` workers, whatever the order in which the workers report: the frame
indices sent as assignments so far are always `1, 2, ..., k` in ascending order for
some `k ≤ n_frames`; when the loop has ended they are exactly `1, ..., n_frames` and the
completed frame indices are a permutation of `1, ..., n_frames`; the run has made one
loop iteration per receive; and it can always be continued until the loop ends. -/
theorem master_assigns_each_frame_once (n_frames num_workers : Int) (hN : 1 ≤ n_frames)
    (hW : 1 ≤ num_workers) (order : List Int) (s : MasterState)
    (hrun : master_run n_frames num_workers order = some s) :
    (∃ k : Nat, (k : Int) ≤ n_frames ∧ assignments s = frames_upto k) ∧
      (master_done n_frames s →
        assignments s = frames_upto n_frames.toNat ∧
          s.received.Perm (frames_upto n_frames.toNat)) ∧
      s.completed_frames = (order.length : Int) ∧
      ∃ rest s2, master_run n_frames num_workers (order ++ rest) = some s2 ∧
        master_done n_frames s2 := by
  obtain ⟨⟨k, hinv⟩, hlen⟩ := masterInv_run hN hW hrun
  refine ⟨⟨k, hinv.le, hinv.assigned⟩, ?_, hlen, ?_⟩
  · intro hdone
    obtain ⟨hk, hfl⟩ := masterInv_done hinv hdone
    have hp := hinv.perm
    rw [hfl] at hp
    simp only [List.map_nil, List.append_nil] at hp
    rw [← hk]
    exact ⟨hinv.assigned, hp⟩
  · exact master_run_extends hN hW (n_frames - s.completed_frames).toNat order s hrun
      (by omega)

/-- C1 at 3 frames and 2 workers reporting in the order 2, 1, 2. -/
theorem master_assigns_each_frame_once_witness :
    (1 : Int) ≤ 3 ∧ (1 : Int) ≤ 2 ∧
      master_run 3 2 [2, 1, 2]
        = some ⟨4, 3, [(1, 1), (2, 2), (2, 3), (1, -1), (2, -1)], [2, 1, 3], []⟩ ∧
      assignments ⟨4, 3, [(1, 1), (2, 2), (2, 3), (1, -1), (2, -1)], [2, 1, 3], []⟩
        = frames_upto (3 : Int).toNat ∧
      List.Perm [2, 1, 3] (frames_upto (3 : Int).toNat) :=
  ⟨by decide, by decide, by decide,
    (master_assigns_each_frame_once 3 2 (by decide) (by decide) [2, 1, 2]
      ⟨4, 3, [(1, 1), (2, 2), (2, 3), (1, -1), (2, -1)], [2, 1, 3], []⟩
      (by decide)).2.1 (by decide)⟩

/-- C2. In every state of `master_process` with `n_frames ≥ 1` frames and
`num_workers ≥ 1` workers, whatever the order in which the workers report (after every
send of the priming loop, at the head of every loop iteration, and between the receive
and the reply of an iteration): the frames assigned and not yet reported complete
number at most `num_workers`, they are the frames held by the workers, and no worker
holds more than one. -/
theorem master_in_flight_bounded (n_frames num_workers : Int) (hN : 1 ≤ n_frames)
    (hW : 1 ≤ num_workers) (order : List Int) (s : MasterState)
    (hrun : master_run n_frames num_workers order = some s) :
    in_flight_bounded num_workers s ∧
      (∀ source f s1, mpi_recv_completion s source = some (f, s1) →
        in_flight_bounded num_workers s1) ∧
      ∀ fuel : Nat,
        in_flight_bounded num_workers (prime_loop n_frames num_workers fuel 1 master_init) := by
  obtain ⟨⟨k, hinv⟩, _⟩ := masterInv_run hN hW hrun
  exact ⟨in_flight_bounded_of_inv hinv,
    fun _ _ _ hrecv => in_flight_bounded_recv hinv hrecv,
    in_flight_bounded_priming n_frames num_workers hN hW⟩

/-- C2 at 3 frames and 2 workers after the first report, which comes from worker 2. -/
theorem master_in_flight_bounded_witness :
    (1 : Int) ≤ 3 ∧ (1 : Int) ≤ 2 ∧
      master_run 3 2 [2] = some ⟨4, 1, [(1, 1), (2, 2), (2, 3)], [2], [(1, 1), (2, 3)]⟩ ∧
      in_flight_bounded 2 ⟨4, 1, [(1, 1), (2, 2), (2, 3)], [2], [(1, 1), (2, 3)]⟩ :=
  ⟨by decide, by decide, by decide,
    (master_in_flight_bounded 3 2 (by decide) (by decide) [2]
      ⟨4, 1, [(1, 1), (2, 2), (2, 3)], [2], [(1, 1), (2, 3)]⟩ (by decide)).1⟩

/-- C3 at its failing input, 1 frame and 2 workers. Only worker 1 is primed, so the
only report that can arrive is its own; the run then ends having sent a single
sentinel and two tag-0 messages in all, none of them to worker 2. Every finished run
at this input sends one sentinel and two tag-0 messages. -/
theorem master_one_frame_two_workers :
    master_run 1 2 [1] = some ⟨2, 1, [(1, 1), (1, -1)], [1], []⟩ ∧
      master_done 1 ⟨2, 1, [(1, 1), (1, -1)], [1], []⟩ ∧
      sentinels ⟨2, 1, [(1, 1), (1, -1)], [1], []⟩ = 1 ∧
      (⟨2, 1, [(1, 1), (1, -1)], [1], []⟩ : MasterState).sent.length = 2 ∧
      master_run 1 2 [2] = none ∧
      ∀ order s, master_run 1 2 order = some s → master_done 1 s →
        sentinels s = 1 ∧ s.sent.length = 2 := by
  refine ⟨by decide, by decide, by decide, by decide, by decide, ?_⟩
  intro order s hrun hdone
  obtain ⟨h1, h2⟩ := master_sentinels_min (by decide) (by decide) hrun hdone
  have h3 : min (2 : Int) 1 = 1 := by decide
  rw [h3] at h1 h2
  exact ⟨by omega, by omega⟩

/-! ## Escape-time kernel: the loop and the orbit -/

/-- The loop started on the orbit after `k` bodies stops on the orbit after some
`r ≥ k` bodies, having found the squared magnitude at most 4 at every step before `r`;
unless the unrolling bound was hit, the loop condition is false where it stops. -/
theorem mandelbrot_loop_spec (cx cy : ℚ) (max_iter : Int) (fuel : Nat) :
    ∀ k : Nat, (∀ j : Nat, j < k → norm_sq (orbit cx cy j) ≤ 4) →
      ∃ r : Nat,
        mandelbrot_loop cx cy max_iter fuel (orbit cx cy k) (k : Int)
            = (orbit cx cy r, (r : Int)) ∧
          k ≤ r ∧ r ≤ k + fuel ∧ (r = k ∨ (r : Int) ≤ max_iter) ∧
          (∀ j : Nat, j < r → norm_sq (orbit cx cy j) ≤ 4) ∧
          (r < k + fuel → ¬ (norm_sq (orbit cx cy r) ≤ 4 ∧ (r : Int) < max_iter)) := by
  induction fuel with
  | zero =>
    intro k hk
    exact ⟨k, rfl, le_refl k, le_refl k, Or.inl rfl, hk, fun h => absurd h (lt_irrefl k)⟩
  | succ fuel ih =>
    intro k hk
    by_cases hc : norm_sq (orbit cx cy k) ≤ 4 ∧ (k : Int) < max_iter
    · have hk2 : ∀ j : Nat, j < k + 1 → norm_sq (orbit cx cy j) ≤ 4 := by
        intro j hj
        rcases Nat.lt_succ_iff_lt_or_eq.mp hj with h | h
        · exact hk j h
        · rw [h]; exact hc.1
      obtain ⟨r, hr, h1, h2, h3, h4, h5⟩ := ih (k + 1) hk2
      refine ⟨r, ?_, by omega, by omega, ?_, h4, fun h => h5 (by omega)⟩
      · have hstep : mandelbrot_loop cx cy max_iter (fuel + 1) (orbit cx cy k) (k : Int)
            = mandelbrot_loop cx cy max_iter fuel (orbit cx cy (k + 1)) ((k + 1 : Nat) : Int) := by
          have hc2 : (orbit cx cy k).1 * (orbit cx cy k).1
              + (orbit cx cy k).2 * (orbit cx cy k).2 ≤ 4 ∧ (k : Int) < max_iter := hc
          rw [mandelbrot_loop, if_pos hc2]
          rfl
        rw [hstep, hr]
      · rcases h3 with h3 | h3
        · right; rw [h3]; push_cast; omega
        · exact Or.inr h3
    · refine ⟨k, ?_, le_refl k, by omega, Or.inl rfl, hk, fun _ => hc⟩
      have hc2 : ¬ ((orbit cx cy k).1 * (orbit cx cy k).1
          + (orbit cx cy k).2 * (orbit cx cy k).2 ≤ 4 ∧ (k : Int) < max_iter) := hc
      rw [mandelbrot_loop, if_neg hc2]

/-- Once the loop condition is false in the state where the loop stopped, unrolling
further changes nothing. -/
theorem mandelbrot_loop_stable (cx cy : ℚ) (max_iter : Int) (fuel extra : Nat) :
    ∀ (z : ℚ × ℚ) (iter : Int),
      ¬ (norm_sq (mandelbrot_loop cx cy max_iter fuel z iter).1 ≤ 4 ∧
          (mandelbrot_loop cx cy max_iter fuel z iter).2 < max_iter) →
      mandelbrot_loop cx cy max_iter (fuel + extra) z iter
        = mandelbrot_loop cx cy max_iter fuel z iter := by
  induction fuel with
  | zero =>
    intro z iter h
    simp only [mandelbrot_loop, norm_sq] at h
    cases extra with
    | zero => rfl
    | succ e =>
      rw [Nat.zero_add]
      simp only [mandelbrot_loop, if_neg h]
  | succ fuel ih =>
    intro z iter h
    rw [Nat.add_right_comm]
    by_cases hc : z.1 * z.1 + z.2 * z.2 ≤ 4 ∧ iter < max_iter
    · rw [mandelbrot_loop, if_pos hc] at h
      rw [mandelbrot_loop, if_pos hc, mandelbrot_loop, if_pos hc]
      exact ih _ _ h
    · rw [mandelbrot_loop, if_neg hc, mandelbrot_loop, if_neg hc]

/-- Full description of `mandelbrot_iterations` for a bound `max_iter ≥ 0`. -/
theorem mandelbrot_iterations_spec (cx cy : ℚ) (max_iter : Int) (hM : 0 ≤ max_iter) :
    ∃ r : Nat, mandelbrot_iterations cx cy max_iter = (r : Int) ∧
      mandelbrot_loop cx cy max_iter max_iter.toNat (0, 0) 0 = (orbit cx cy r, (r : Int)) ∧
      (r : Int) ≤ max_iter ∧
      (∀ j : Nat, j < r → norm_sq (orbit cx cy j) ≤ 4) ∧
      ¬ (norm_sq (orbit cx cy r) ≤ 4 ∧ (r : Int) < max_iter) := by
  obtain ⟨r, hr, _, h2, _, h4, h5⟩ :=
    mandelbrot_loop_spec cx cy max_iter max_iter.toNat 0 (fun j hj => absurd hj (Nat.not_lt_zero j))
  have hr2 : mandelbrot_loop cx cy max_iter max_iter.toNat (0, 0) 0
      = (orbit cx cy r, (r : Int)) := hr
  refine ⟨r, ?_, hr2, by omega, h4, ?_⟩
  · unfold mandelbrot_iterations; rw [hr2]
  · by_cases hlt : r < 0 + max_iter.toNat
    · exact h5 hlt
    · intro hc; omega

/-- If the orbit never leaves the disc of squared radius 4, the kernel returns the bound. -/
theorem mandelbrot_iterations_bounded_orbit (cx cy : ℚ) (max_iter : Int) (hM : 0 ≤ max_iter)
    (h : ∀ j : Nat, norm_sq (orbit cx cy j) ≤ 4) :
    mandelbrot_iterations cx cy max_iter = max_iter := by
  obtain ⟨r, hr, _, hle, _, hex⟩ := mandelbrot_iterations_spec cx cy max_iter hM
  rw [hr]
  by_contra hne
  exact hex ⟨h r, by omega⟩

/-- For a negative bound the loop body never runs. -/
theorem mandelbrot_iterations_neg (cx cy : ℚ) (max_iter : Int) (hM : max_iter ≤ 0) :
    mandelbrot_iterations cx cy max_iter = 0 := by
  unfold mandelbrot_iterations
  cases h : max_iter.toNat with
  | zero => rfl
  | succ n =>
    have hc : ¬ ((0 : ℚ) * 0 + 0 * 0 ≤ 4 ∧ (0 : Int) < max_iter) := by
      intro hc; omega
    rw [mandelbrot_loop]
    simp only [hc, if_false]

/-! ## Escape-time kernel: the claims -/

/-- C4. For every point `(cx, cy)` and every bound `max_iter ≥ 0`,
`mandelbrot_iterations` returns `r` with `0 ≤ r ≤ max_iter`; the loop stops by itself
after exactly `r` bodies, within the `max_iter` iterations unrolled (its condition is
false there, and unrolling further changes nothing); the squared magnitude of the
orbit was at most 4 at every step before `r`; and `r < max_iter` only if the squared
magnitude exceeds 4 after exactly `r` steps. -/
theorem mandelbrot_iterations_range (cx cy : ℚ) (max_iter : Int) (hM : 0 ≤ max_iter) :
    0 ≤ mandelbrot_iterations cx cy max_iter ∧
      mandelbrot_iterations cx cy max_iter ≤ max_iter ∧
      mandelbrot_loop cx cy max_iter max_iter.toNat (0, 0) 0
        = (orbit cx cy (mandelbrot_iterations cx cy max_iter).toNat,
            mandelbrot_iterations cx cy max_iter) ∧
      ¬ (norm_sq (orbit cx cy (mandelbrot_iterations cx cy max_iter).toNat) ≤ 4 ∧
          mandelbrot_iterations cx cy max_iter < max_iter) ∧
      (∀ extra : Nat, mandelbrot_loop cx cy max_iter (max_iter.toNat + extra) (0, 0) 0
        = mandelbrot_loop cx cy max_iter max_iter.toNat (0, 0) 0) ∧
      (∀ j : Nat, (j : Int) < mandelbrot_iterations cx cy max_iter →
        norm_sq (orbit cx cy j) ≤ 4) ∧
      (mandelbrot_iterations cx cy max_iter < max_iter →
        4 < norm_sq (orbit cx cy (mandelbrot_iterations cx cy max_iter).toNat)) := by
  obtain ⟨r, hr, hloop, hle, hbefore, hexit⟩ := mandelbrot_iterations_spec cx cy max_iter hM
  rw [hr]
  simp only [Int.toNat_ofNat]
  refine ⟨by omega, hle, hloop, hexit, ?_, ?_, ?_⟩
  · intro extra
    apply mandelbrot_loop_stable
    rw [hloop]
    exact hexit
  · intro j hj
    exact hbefore j (by omega)
  · intro hlt
    by_contra hn
    exact hexit ⟨not_lt.mp hn, hlt⟩

/-- C4 at the point `(2, 0)` with bound 5. -/
theorem mandelbrot_iterations_range_witness :
    (0 : Int) ≤ 5 ∧ 0 ≤ mandelbrot_iterations 2 0 5 ∧ mandelbrot_iterations 2 0 5 ≤ 5 :=
  ⟨by decide, (mandelbrot_iterations_range 2 0 5 (by decide)).1,
    (mandelbrot_iterations_range 2 0 5 (by decide)).2.1⟩

theorem orbit_origin (k : Nat) : orbit 0 0 k = (0, 0) := by
  induction k with
  | zero => rfl
  | succ k ih => simp [orbit, ih, mandelbrot_body]

/-- C5. For every bound `max_iter ≥ 0`, `mandelbrot_iterations(0, 0, max_iter)` returns
`max_iter`, and the orbit of the origin is `(0, 0)` at every step. -/
theorem mandelbrot_iterations_origin (max_iter : Int) (hM : 0 ≤ max_iter) :
    mandelbrot_iterations 0 0 max_iter = max_iter ∧ ∀ k : Nat, orbit 0 0 k = (0, 0) := by
  refine ⟨mandelbrot_iterations_bounded_orbit 0 0 max_iter hM ?_, orbit_origin⟩
  intro j
  rw [orbit_origin]
  norm_num [norm_sq]

/-- C5 at bound 7. -/
theorem mandelbrot_iterations_origin_witness :
    (0 : Int) ≤ 7 ∧ mandelbrot_iterations 0 0 7 = 7 :=
  ⟨by decide, (mandelbrot_iterations_origin 7 (by decide)).1⟩

/-- C6. For every bound `max_iter ≥ 2`, `mandelbrot_iterations(2, 0, max_iter)` returns
exactly 2: the orbit goes `(0, 0)`, `(2, 0)`, `(6, 0)`, where squared magnitude 4 does
not stop the loop and squared magnitude 36 does. -/
theorem mandelbrot_iterations_two (max_iter : Int) (hM : 2 ≤ max_iter) :
    mandelbrot_iterations 2 0 max_iter = 2 ∧
      orbit 2 0 1 = (2, 0) ∧ orbit 2 0 2 = (6, 0) ∧
      norm_sq (orbit 2 0 1) = 4 ∧ norm_sq (orbit 2 0 2) = 36 := by
  have o1 : orbit 2 0 1 = (2, 0) := by norm_num [orbit, mandelbrot_body]
  have o2 : orbit 2 0 2 = (6, 0) := by norm_num [orbit, mandelbrot_body]
  have n0 : norm_sq (orbit 2 0 0) = 0 := by norm_num [orbit, norm_sq]
  have n1 : norm_sq (orbit 2 0 1) = 4 := by rw [o1]; norm_num [norm_sq]
  have n2 : norm_sq (orbit 2 0 2) = 36 := by rw [o2]; norm_num [norm_sq]
  refine ⟨?_, o1, o2, n1, n2⟩
  obtain ⟨r, hr, _, hle, hbefore, hexit⟩ :=
    mandelbrot_iterations_spec 2 0 max_iter (by omega)
  rw [hr]
  have h2 : r = 2 := by
    rcases Nat.lt_trichotomy r 2 with h | h | h
    · exfalso
      interval_cases r
      · exact hexit ⟨by rw [n0]; norm_num, by omega⟩
      · exact hexit ⟨by rw [n1], by omega⟩
    · exact h
    · exfalso
      have := hbefore 2 h
      rw [n2] at this
      norm_num at this
  rw [h2]; rfl

/-- C6 at bound 2. -/
theorem mandelbrot_iterations_two_witness :
    (2 : Int) ≤ 2 ∧ mandelbrot_iterations 2 0 2 = 2 :=
  ⟨by decide, (mandelbrot_iterations_two 2 (by decide)).1⟩

/-! ## Colour map -/

theorem quartic_bound (t : ℚ) (h0 : 0 ≤ t) : (1 - t) * t * t * t ≤ 27 / 256 := by
  have h := mul_nonneg (sq_nonneg (t - 3 / 4))
    (show (0 : ℚ) ≤ t ^ 2 + t / 2 + 3 / 16 by positivity)
  nlinarith [h]

theorem channel_r_range (t : ℚ) (h0 : 0 ≤ t) (h1 : t ≤ 1) :
    0 ≤ channel_r t ∧ channel_r t < 256 := by
  unfold channel_r
  have hs : 0 ≤ 1 - t := by linarith
  constructor
  · positivity
  · have := quartic_bound t h0
    nlinarith [this]

theorem channel_g_range (t : ℚ) (h0 : 0 ≤ t) (h1 : t ≤ 1) :
    0 ≤ channel_g t ∧ channel_g t < 256 := by
  unfold channel_g
  have hs : 0 ≤ 1 - t := by linarith
  constructor
  · positivity
  · have hu : (1 - t) * t ≤ 1 / 4 := by nlinarith [sq_nonneg (t - 1 / 2)]
    have hu0 : 0 ≤ (1 - t) * t := mul_nonneg hs h0
    have : ((1 - t) * t) * ((1 - t) * t) ≤ 1 / 16 := by nlinarith
    nlinarith [this]

theorem channel_b_range (t : ℚ) (h0 : 0 ≤ t) (h1 : t ≤ 1) :
    0 ≤ channel_b t ∧ channel_b t < 256 := by
  unfold channel_b
  have hs : 0 ≤ 1 - t := by linarith
  constructor
  · positivity
  · have := quartic_bound (1 - t) hs
    have e : (1 - (1 - t)) * (1 - t) * (1 - t) * (1 - t)
        = (1 - t) * (1 - t) * (1 - t) * t := by ring
    rw [e] at this
    nlinarith [this]

theorem static_cast_uchar_defined (v : ℚ) (h : 0 ≤ v ∧ v < 256) :
    ∃ n, static_cast_uchar v = some n := by
  have hc : -1 < v ∧ v < 256 := ⟨by linarith [h.1], h.2⟩
  exact ⟨_, by rw [static_cast_uchar, if_pos hc]⟩

/-- Past the sentinel test `get_color` is defined whenever the fraction
`iterations / max_iterations` lies in `[0, 1]`. -/
theorem get_color_defined_of_fraction (iterations max_iterations : Int)
    (h0 : max_iterations ≠ 0)
    (ht0 : 0 ≤ (iterations : ℚ) / (max_iterations : ℚ))
    (ht1 : (iterations : ℚ) / (max_iterations : ℚ) ≤ 1) :
    ∃ c, get_color iterations max_iterations = some c := by
  by_cases heq : iterations = max_iterations
  · exact ⟨_, by rw [get_color, if_pos heq]⟩
  · obtain ⟨r, hr⟩ := static_cast_uchar_defined _ (channel_r_range _ ht0 ht1)
    obtain ⟨g, hg⟩ := static_cast_uchar_defined _ (channel_g_range _ ht0 ht1)
    obtain ⟨b, hb⟩ := static_cast_uchar_defined _ (channel_b_range _ ht0 ht1)
    refine ⟨⟨r, g, b⟩, ?_⟩
    rw [get_color, if_neg heq, if_neg h0]
    simp only [hr, hg, hb]

/-- The conversions in `get_color` are defined on every count the kernel returns. -/
theorem get_color_kernel_defined (cx cy : ℚ) (n_max : Int) :
    ∃ c, get_color (mandelbrot_iterations cx cy n_max) n_max = some c := by
  rcases lt_trichotomy n_max 0 with hneg | hzero | hpos
  · rw [mandelbrot_iterations_neg cx cy n_max (le_of_lt hneg)]
    exact get_color_defined_of_fraction 0 n_max (ne_of_lt hneg) (by simp) (by simp)
  · subst hzero
    rw [mandelbrot_iterations_neg cx cy 0 (le_refl 0)]
    exact ⟨_, by rw [get_color, if_pos rfl]⟩
  · obtain ⟨r, hr, _, hle, _, _⟩ := mandelbrot_iterations_spec cx cy n_max (le_of_lt hpos)
    rw [hr]
    have hq : (0 : ℚ) < (n_max : ℚ) := by exact_mod_cast hpos
    refine get_color_defined_of_fraction _ n_max (ne_of_gt hpos) ?_ ?_
    · exact div_nonneg (by exact_mod_cast Int.natCast_nonneg r) (le_of_lt hq)
    · rw [div_le_one hq]
      exact_mod_cast hle

/-- C7. For every bound `M`, zero and negative values included, `get_color(M, M)` is
exactly `(0, 0, 0)`; the quotient by `max_iterations` is not formed on that path,
whereas any other count with a zero bound is undefined. -/
theorem get_color_sentinel (M : Int) :
    get_color M M = some ⟨0, 0, 0⟩ ∧ get_color 0 0 = some ⟨0, 0, 0⟩ ∧
      ∀ i : Int, i ≠ 0 → get_color i 0 = none := by
  refine ⟨by rw [get_color, if_pos rfl], by rw [get_color, if_pos rfl], ?_⟩
  intro i hi
  rw [get_color, if_neg hi, if_pos rfl]

/-! ## Frame renderer -/

/-- One pixel: the colour is defined and is stored at index `py * nx + px`. -/
theorem render_pixel_spec (n_max : Int) (x_min y_min : ℚ) (nx : Int) (pixel_size : ℚ)
    (hnx : 0 ≤ nx) (py px : Nat) (buf : List RGB) (hidx : py * nx.toNat + px < buf.length) :
    ∃ c, get_color (mandelbrot_iterations (x_min + (px : ℚ) * pixel_size)
          (y_min + (py : ℚ) * pixel_size) n_max) n_max = some c ∧
      render_pixel n_max x_min y_min nx pixel_size py buf px
        = some (buf.set (py * nx.toNat + px) c) := by
  obtain ⟨c, hc⟩ := get_color_kernel_defined (x_min + (px : ℚ) * pixel_size)
    (y_min + (py : ℚ) * pixel_size) n_max
  refine ⟨c, hc, ?_⟩
  have hcast : (py : Int) * nx + (px : Int) = ((py * nx.toNat + px : Nat) : Int) := by
    push_cast
    rw [Int.toNat_of_nonneg hnx]
  have hcond : 0 ≤ (py : Int) * nx + (px : Int) ∧
      (py : Int) * nx + (px : Int) < (buf.length : Int) := by
    rw [hcast]
    exact ⟨Int.natCast_nonneg _, by exact_mod_cast hidx⟩
  simp only [render_pixel, hc, store_pixel, if_pos hcond]
  rw [hcast, Int.toNat_ofNat]

/-- The inner loop over the first `m` pixels of row `py`. -/
theorem render_row_upto (n_max : Int) (x_min y_min : ℚ) (nx : Int) (pixel_size : ℚ)
    (hnx : 0 ≤ nx) (py : Nat) (buf : List RGB)
    (hrow : py * nx.toNat + nx.toNat ≤ buf.length) (m : Nat) :
    m ≤ nx.toNat →
      ∃ out, (List.range m).foldlM (render_pixel n_max x_min y_min nx pixel_size py) buf
          = some out ∧
        out.length = buf.length ∧
        (∀ px : Nat, px < m →
          out[py * nx.toNat + px]? = get_color (mandelbrot_iterations
            (x_min + (px : ℚ) * pixel_size) (y_min + (py : ℚ) * pixel_size) n_max) n_max) ∧
        ∀ i : Nat, (i < py * nx.toNat ∨ py * nx.toNat + m ≤ i) → out[i]? = buf[i]? := by
  induction m with
  | zero =>
    intro _
    exact ⟨buf, rfl, rfl, fun px h => absurd h (Nat.not_lt_zero px), fun _ _ => rfl⟩
  | succ m ih =>
    intro hm
    obtain ⟨mid, hmid, hlen, hset, hrest⟩ := ih (by omega)
    obtain ⟨c, hc, hpix⟩ := render_pixel_spec n_max x_min y_min nx pixel_size hnx py m mid
      (by omega)
    refine ⟨mid.set (py * nx.toNat + m) c, ?_, ?_, ?_, ?_⟩
    · rw [List.range_succ, List.foldlM_append, hmid]
      simp [hpix]
    · rw [List.length_set, hlen]
    · intro px hpx
      rcases Nat.lt_succ_iff_lt_or_eq.mp hpx with h | h
      · rw [List.getElem?_set_ne (by omega)]
        exact hset px h
      · subst h
        rw [List.getElem?_set_self (by omega), hc]
    · intro i hi
      rw [List.getElem?_set_ne (by omega)]
      exact hrest i (by omega)

/-- The outer loop over the first `m` rows. -/
theorem generate_frame_upto (n_max : Int) (x_min y_min : ℚ) (nx : Int) (pixel_size : ℚ)
    (hnx : 0 ≤ nx) (ny : Nat) (buf : List RGB) (hlen : buf.length = ny * nx.toNat)
    (m : Nat) :
    m ≤ ny →
      ∃ out, (List.range m).foldlM (render_row n_max x_min y_min nx pixel_size) buf
          = some out ∧
        out.length = buf.length ∧
        (∀ py px : Nat, py < m → px < nx.toNat →
          out[py * nx.toNat + px]? = get_color (mandelbrot_iterations
            (x_min + (px : ℚ) * pixel_size) (y_min + (py : ℚ) * pixel_size) n_max) n_max) ∧
        ∀ i : Nat, m * nx.toNat ≤ i → out[i]? = buf[i]? := by
  induction m with
  | zero =>
    intro _
    exact ⟨buf, rfl, rfl, fun py px h => absurd h (Nat.not_lt_zero py), fun _ _ => rfl⟩
  | succ m ih =>
    intro hm
    obtain ⟨mid, hmid, hmlen, hset, hrest⟩ := ih (by omega)
    have hmul : (m + 1) * nx.toNat ≤ ny * nx.toNat := Nat.mul_le_mul_right _ hm
    have hsucc : (m + 1) * nx.toNat = m * nx.toNat + nx.toNat := Nat.succ_mul _ _
    obtain ⟨out, hout, holen, hoset, horest⟩ := render_row_upto n_max x_min y_min nx
      pixel_size hnx m mid (by omega) nx.toNat (le_refl _)
    refine ⟨out, ?_, by omega, ?_, ?_⟩
    · rw [List.range_succ, List.foldlM_append, hmid]
      simp only [Option.bind_eq_bind, Option.some_bind, List.foldlM_cons, List.foldlM_nil]
      have : render_row n_max x_min y_min nx pixel_size mid m = some out := hout
      rw [this]
      rfl
    · intro py px hpy hpx
      rcases Nat.lt_succ_iff_lt_or_eq.mp hpy with h | h
      · have hlt : py * nx.toNat + px < m * nx.toNat := by
          have : (py + 1) * nx.toNat ≤ m * nx.toNat := Nat.mul_le_mul_right _ h
          rw [Nat.succ_mul] at this
          omega
        rw [horest _ (Or.inl hlt)]
        exact hset py px h hpx
      · subst h
        exact hoset px hpx
    · intro i hi
      rw [horest i (Or.inr (by omega))]
      exact hrest i (by omega)

/-- Both loops of `generate_frame`: every entry of the returned buffer is the colour of
its pixel. -/
theorem generate_frame_spec (n_max : Int) (x_center y_center : ℚ) (nx ny : Int)
    (pixel_size : ℚ) (pixels : List RGB) (hnx : 0 ≤ nx) (hny : 0 ≤ ny)
    (hlen : (pixels.length : Int) = nx * ny) :
    ∃ out, generate_frame n_max x_center y_center nx ny pixel_size pixels = some out ∧
      (out.length : Int) = nx * ny ∧
      ∀ px py : Nat, (px : Int) < nx → (py : Int) < ny →
        out[py * nx.toNat + px]? =
          get_color (mandelbrot_iterations
            ((x_center - ((nx : ℚ) / 2) * pixel_size) + (px : ℚ) * pixel_size)
            ((y_center - ((ny : ℚ) / 2) * pixel_size) + (py : ℚ) * pixel_size) n_max)
            n_max := by
  have hl : pixels.length = ny.toNat * nx.toNat := by
    have h1 : ((ny.toNat * nx.toNat : Nat) : Int) = nx * ny := by
      push_cast
      rw [Int.toNat_of_nonneg hnx, Int.toNat_of_nonneg hny, mul_comm]
    exact_mod_cast hlen.trans h1.symm
  obtain ⟨out, hout, holen, hoset, _⟩ := generate_frame_upto n_max
    (x_center - ((nx : ℚ) / 2) * pixel_size) (y_center - ((ny : ℚ) / 2) * pixel_size)
    nx pixel_size hnx ny.toNat pixels hl ny.toNat (le_refl _)
  refine ⟨out, hout, by rw [holen]; exact hlen, ?_⟩
  intro px py hpx hpy
  exact hoset py px (by omega) (by omega)

/-- C8. For every geometry with `nx ≥ 0`, `ny ≥ 0` and a buffer of length `nx * ny`,
`generate_frame` returns a buffer of the same length `nx * ny` in which, for all
`0 ≤ px < nx` and `0 ≤ py < ny`, the entry at row-major index `py * nx + px` is
`get_color(mandelbrot_iterations(cx, cy, n_max), n_max)` with
`cx = (x_center - (nx/2) * pixel_size) + px * pixel_size` and
`cy = (y_center - (ny/2) * pixel_size) + py * pixel_size`, the halves being exact. -/
theorem generate_frame_pixels (n_max : Int) (x_center y_center : ℚ) (nx ny : Int)
    (pixel_size : ℚ) (pixels : List RGB) (hnx : 0 ≤ nx) (hny : 0 ≤ ny)
    (hlen : (pixels.length : Int) = nx * ny) :
    ∃ out, generate_frame n_max x_center y_center nx ny pixel_size pixels = some out ∧
      (out.length : Int) = nx * ny ∧
      ∀ px py : Nat, (px : Int) < nx → (py : Int) < ny →
        out[py * nx.toNat + px]? =
          get_color (mandelbrot_iterations
            ((x_center - ((nx : ℚ) / 2) * pixel_size) + (px : ℚ) * pixel_size)
            ((y_center - ((ny : ℚ) / 2) * pixel_size) + (py : ℚ) * pixel_size) n_max)
            n_max :=
  generate_frame_spec n_max x_center y_center nx ny pixel_size pixels hnx hny hlen

/-- C8 on a 2 x 1 frame with bound 3, centre `(0, 0)` and pixel size 1. -/
theorem generate_frame_pixels_witness :
    (0 : Int) ≤ 2 ∧ (0 : Int) ≤ 1 ∧
      ((fresh_pixels (2 * 1)).length : Int) = 2 * 1 ∧
      ∃ out, generate_frame 3 0 0 2 1 1 (fresh_pixels (2 * 1)) = some out ∧
        (out.length : Int) = 2 * 1 ∧
        ∀ px py : Nat, (px : Int) < 2 → (py : Int) < 1 →
          out[py * (2 : Int).toNat + px]? =
            get_color (mandelbrot_iterations
              (((0 : ℚ) - (((2 : Int) : ℚ) / 2) * 1) + (px : ℚ) * 1)
              (((0 : ℚ) - (((1 : Int) : ℚ) / 2) * 1) + (py : ℚ) * 1) 3) 3 :=
  ⟨by decide, by decide, by decide,
    generate_frame_pixels 3 0 0 2 1 1 (fresh_pixels (2 * 1)) (by decide) (by decide)
      (by decide)⟩

/-- The orbit of `(-1/2, 0)` stays on the real segment `[-1/2, 0]`. -/
theorem orbit_minus_half (k : Nat) :
    (orbit (-1 / 2) 0 k).2 = 0 ∧ -1 / 2 ≤ (orbit (-1 / 2) 0 k).1 ∧
      (orbit (-1 / 2) 0 k).1 ≤ 0 := by
  induction k with
  | zero => norm_num [orbit]
  | succ k ih =>
    obtain ⟨h0, h1, h2⟩ := ih
    simp only [orbit, mandelbrot_body, h0]
    refine ⟨by ring, ?_, ?_⟩
    · nlinarith [sq_nonneg (orbit (-1 / 2) 0 k).1]
    · nlinarith

theorem mandelbrot_iterations_minus_half (max_iter : Int) (hM : 0 ≤ max_iter) :
    mandelbrot_iterations (-1 / 2) 0 max_iter = max_iter := by
  apply mandelbrot_iterations_bounded_orbit _ _ _ hM
  intro j
  obtain ⟨h0, h1, h2⟩ := orbit_minus_half j
  unfold norm_sq
  rw [h0]
  nlinarith

/-- With one frame the single-process loop renders frame 1 into the fresh vector. -/
theorem main_single_process_one (n_max : Int) (x_center y_center : ℚ) (nx ny : Int)
    (init_pixel_size zoom : ℚ) (out : List RGB) (hsize : 0 ≤ nx * ny)
    (h : generate_frame n_max x_center y_center nx ny
      (current_pixel_size init_pixel_size zoom 1) (fresh_pixels (nx * ny)) = some out) :
    main_single_process n_max x_center y_center nx ny init_pixel_size zoom 1
      = some [out] := by
  have h1 : (1 : Int).toNat = 1 := rfl
  have hr : List.range 1 = [0] := rfl
  have h0 : ((0 : Nat) : Int) + 1 = 1 := rfl
  unfold main_single_process alloc_pixels
  rw [if_pos hsize]
  simp only []
  rw [h1, hr, List.foldlM_cons]
  simp only [h0, h, List.foldlM_nil]
  rfl

/-- C9. The run with bound 100, centre `(-0.5, 0)`, resolution 4 x 4, initial pixel
size 1.0 and one frame, whatever the zoom factor: frame 1 is rendered with pixel size
1.0, the run renders exactly one buffer, which has 16 entries, pixel `(2, 2)` maps to the
point `(-0.5, 0)`, `mandelbrot_iterations(-0.5, 0, 100) = 100`, and the entry at index
`2 * 4 + 2` is `(0, 0, 0)`. -/
theorem end_to_end_scenario (zoom : ℚ) :
    current_pixel_size (1 : ℚ) zoom 1 = 1 ∧
      ∃ out, main_single_process 100 (-1 / 2) 0 4 4 1 zoom 1 = some [out] ∧
        generate_frame 100 (-1 / 2) 0 4 4 (current_pixel_size (1 : ℚ) zoom 1)
          (fresh_pixels (4 * 4)) = some out ∧
        out.length = 16 ∧
        (((-1 / 2 : ℚ) - (((4 : Int) : ℚ) / 2) * 1) + ((2 : Nat) : ℚ) * 1 = -1 / 2) ∧
        (((0 : ℚ) - (((4 : Int) : ℚ) / 2) * 1) + ((2 : Nat) : ℚ) * 1 = 0) ∧
        mandelbrot_iterations (-1 / 2) 0 100 = 100 ∧
        out[2 * 4 + 2]? = some ⟨0, 0, 0⟩ := by
  have hps : current_pixel_size (1 : ℚ) zoom 1 = 1 := by simp [current_pixel_size]
  have hk := mandelbrot_iterations_minus_half 100 (by decide)
  have hx : ((-1 / 2 : ℚ) - (((4 : Int) : ℚ) / 2) * 1) + ((2 : Nat) : ℚ) * 1 = -1 / 2 := by
    norm_num
  have hy : ((0 : ℚ) - (((4 : Int) : ℚ) / 2) * 1) + ((2 : Nat) : ℚ) * 1 = 0 := by
    norm_num
  refine ⟨hps, ?_⟩
  obtain ⟨out, hout, hlen, hpix⟩ := generate_frame_spec 100 (-1 / 2) 0 4 4 1
    (fresh_pixels (4 * 4)) (by decide) (by decide) (by decide)
  have hout1 : generate_frame 100 (-1 / 2) 0 4 4 (current_pixel_size (1 : ℚ) zoom 1)
      (fresh_pixels (4 * 4)) = some out := by
    rw [hps]; exact hout
  refine ⟨out, main_single_process_one 100 (-1 / 2) 0 4 4 1 zoom out (by decide) hout1, hout1,
    by exact_mod_cast hlen, hx, hy, hk, ?_⟩
  have h := hpix 2 2 (by decide) (by decide)
  rw [hx, hy, hk] at h
  have hb : get_color 100 100 = some ⟨0, 0, 0⟩ := by rw [get_color, if_pos rfl]
  rw [hb] at h
  exact h

/-! ## Zoom schedule -/

/-- C10. Over exact real arithmetic, with
`zoom_per_frame = zoom_per_second ^ (1/60)`: for every zoom factor per unit time
greater than 1, every positive initial pixel size and every frame index `frame ≥ 1`,
the pixel size of frame `frame + 1` is strictly smaller than that of frame `frame`. -/
theorem pixel_size_strictly_decreasing (zoom_per_second init_pixel_size : ℝ) (frame : Int)
    (hz : 1 < zoom_per_second) (hi : 0 < init_pixel_size) (_hf : 1 ≤ frame) :
    current_pixel_size init_pixel_size (zoom_per_frame zoom_per_second) (frame + 1)
      < current_pixel_size init_pixel_size (zoom_per_frame zoom_per_second) frame := by
  have hz1 : 1 < zoom_per_frame zoom_per_second :=
    Real.one_lt_rpow hz (by norm_num)
  have hz0 : 0 < zoom_per_frame zoom_per_second := lt_trans zero_lt_one hz1
  unfold current_pixel_size
  have hpow : 0 < zoom_per_frame zoom_per_second ^ (frame - 1) := zpow_pos hz0 _
  have hstep : zoom_per_frame zoom_per_second ^ (frame + 1 - 1)
      = zoom_per_frame zoom_per_second ^ (frame - 1) * zoom_per_frame zoom_per_second := by
    rw [← zpow_add_one₀ (ne_of_gt hz0)]
    congr 1
    ring
  rw [hstep]
  apply div_lt_div_of_pos_left hi hpow
  nlinarith

/-- C10 at zoom factor 2 per unit time, initial pixel size 1, frame 1. -/
theorem pixel_size_strictly_decreasing_witness :
    (1 : ℝ) < 2 ∧ (0 : ℝ) < 1 ∧ (1 : Int) ≤ 1 ∧
      current_pixel_size (1 : ℝ) (zoom_per_frame 2) (1 + 1)
        < current_pixel_size (1 : ℝ) (zoom_per_frame 2) 1 :=
  ⟨by norm_num, by norm_num, by decide,
    pixel_size_strictly_decreasing 2 1 1 (by norm_num) (by norm_num) (by decide)⟩

theorem current_pixel_size_one {α : Type} [DivisionRing α] (init_pixel_size zoom : α) :
    current_pixel_size init_pixel_size zoom 1 = init_pixel_size := by
  simp [current_pixel_size]

theorem zoom_per_frame_pow_sixty (z : ℝ) (hz : 0 ≤ z) : zoom_per_frame z ^ (60 : ℕ) = z := by
  unfold zoom_per_frame
  rw [← Real.rpow_natCast, ← Real.rpow_mul hz]
  norm_num

theorem zoom_per_frame_unit : zoom_per_frame 1 = 1 := by
  unfold zoom_per_frame
  exact Real.one_rpow _

/-- C12. When the zoom factor per unit time is 1 the per-frame factor is 1 and, for
every initial pixel size and every frame index `frame ≥ 1`, the pixel size of the frame
is the initial pixel size. -/
theorem pixel_size_constant_at_unit_zoom (init_pixel_size : ℝ) (frame : Int)
    (_hf : 1 ≤ frame) :
    zoom_per_frame 1 = 1 ∧
      current_pixel_size init_pixel_size (zoom_per_frame 1) frame = init_pixel_size := by
  refine ⟨zoom_per_frame_unit, ?_⟩
  rw [zoom_per_frame_unit]
  simp [current_pixel_size]

/-- C12 at initial pixel size 3 and frame 7. -/
theorem pixel_size_constant_at_unit_zoom_witness :
    (1 : Int) ≤ 7 ∧ current_pixel_size (3 : ℝ) (zoom_per_frame 1) 7 = 3 :=
  ⟨by decide, (pixel_size_constant_at_unit_zoom 3 7 (by decide)).2⟩

/-- C14. Over exact real arithmetic the per-frame factor is the 60th root of the zoom
factor per unit time `z > 0` (its 60th power is `z`), and for every initial pixel size
and every frame index `frame ≥ 1` the pixel size 60 frames later is the pixel size of
`frame` divided by `z`. -/
theorem pixel_size_sixty_frames (z init_pixel_size : ℝ) (frame : Int) (hz : 0 < z)
    (_hf : 1 ≤ frame) :
    zoom_per_frame z ^ (60 : ℕ) = z ∧
      current_pixel_size init_pixel_size (zoom_per_frame z) (frame + 60)
        = current_pixel_size init_pixel_size (zoom_per_frame z) frame / z := by
  have h60 := zoom_per_frame_pow_sixty z (le_of_lt hz)
  have hpos : 0 < zoom_per_frame z := Real.rpow_pos_of_pos hz _
  refine ⟨h60, ?_⟩
  unfold current_pixel_size
  have hsplit : zoom_per_frame z ^ (frame + 60 - 1)
      = zoom_per_frame z ^ (frame - 1) * zoom_per_frame z ^ (60 : ℕ) := by
    rw [← zpow_natCast, ← zpow_add₀ (ne_of_gt hpos)]
    congr 1
    push_cast
    ring
  rw [hsplit, h60, div_mul_eq_div_div]

/-- C14 at zoom factor 2 per unit time, initial pixel size 1, frame 1. -/
theorem pixel_size_sixty_frames_witness :
    (0 : ℝ) < 2 ∧ (1 : Int) ≤ 1 ∧
      current_pixel_size (1 : ℝ) (zoom_per_frame 2) (1 + 60)
        = current_pixel_size (1 : ℝ) (zoom_per_frame 2) 1 / 2 :=
  ⟨by norm_num, by decide, (pixel_size_sixty_frames 2 1 1 (by norm_num) (by decide)).2⟩

/-- With one frame the serial loop renders frame 1 at the initial pixel size. -/
theorem serial_main_one (n_max : Int) (x_center y_center : ℚ) (nx ny : Int)
    (init_pixel_size zoom : ℚ) :
    serial_main n_max x_center y_center nx ny init_pixel_size zoom 1
      = (serial_generate_frame n_max x_center y_center nx ny init_pixel_size).map
          (fun out => [out]) := by
  have h1 : (1 : Int).toNat = 1 := rfl
  have hr : List.range 1 = [0] := rfl
  have h0 : ((0 : Nat) : Int) + 1 = 1 := rfl
  unfold serial_main
  rw [h1, hr, List.foldlM_cons]
  simp only [h0, current_pixel_size_one]
  cases serial_generate_frame n_max x_center y_center nx ny init_pixel_size with
  | none => rfl
  | some out => rfl

/-- With one frame the single-process loop renders frame 1 at the initial pixel size
into its freshly allocated vector. -/
theorem main_single_process_first (n_max : Int) (x_center y_center : ℚ) (nx ny : Int)
    (init_pixel_size zoom : ℚ) :
    main_single_process n_max x_center y_center nx ny init_pixel_size zoom 1
      = ((alloc_pixels (nx * ny)).bind
          (generate_frame n_max x_center y_center nx ny init_pixel_size)).map
          (fun out => [out]) := by
  have h1 : (1 : Int).toNat = 1 := rfl
  have hr : List.range 1 = [0] := rfl
  have h0 : ((0 : Nat) : Int) + 1 = 1 := rfl
  unfold main_single_process
  cases alloc_pixels (nx * ny) with
  | none => rfl
  | some pixels =>
    simp only [Option.some_bind]
    rw [h1, hr, List.foldlM_cons]
    simp only [h0, current_pixel_size_one]
    cases generate_frame n_max x_center y_center nx ny init_pixel_size pixels with
    | none => rfl
    | some out => rfl

/-- Handed frame 1 and then the sentinel, the worker renders frame 1 at the initial
pixel size into its freshly allocated vector. -/
theorem worker_process_first (n_max : Int) (x_center y_center : ℚ) (nx ny : Int)
    (init_pixel_size zoom : ℚ) (store_images : Bool) (post : List Int) :
    worker_process n_max x_center y_center nx ny init_pixel_size zoom store_images
        (1 :: -1 :: post)
      = ((alloc_pixels (nx * ny)).bind
          (generate_frame n_max x_center y_center nx ny init_pixel_size)).map
          (fun out => ⟨worker_report store_images 1 out, out, post, true⟩) := by
  have hne : ¬ ((1 : Int) = -1) := by decide
  unfold worker_process
  cases alloc_pixels (nx * ny) with
  | none => rfl
  | some pixels =>
    simp only [Option.some_bind, worker_loop, if_neg hne, current_pixel_size_one]
    cases generate_frame n_max x_center y_center nx ny init_pixel_size pixels with
    | none => rfl
    | some out => simp

/-- C11. For every initial pixel size and every zoom factor, the pixel size computed for
frame 1 is the initial pixel size unmodified: over the reals with the per-frame factor
`zoom_per_second ^ (1/60)`, and for any per-frame factor in the serial loop, in the
single-process MPI loop and in `worker_process`, each of which renders frame 1 with the
initial pixel size. -/
theorem first_frame_pixel_size (real_init zoom_per_second : ℝ) (n_max : Int)
    (x_center y_center : ℚ) (nx ny : Int) (init_pixel_size zoom : ℚ) (store_images : Bool)
    (post : List Int) :
    current_pixel_size real_init (zoom_per_frame zoom_per_second) 1 = real_init ∧
      current_pixel_size init_pixel_size zoom 1 = init_pixel_size ∧
      serial_main n_max x_center y_center nx ny init_pixel_size zoom 1
        = (serial_generate_frame n_max x_center y_center nx ny init_pixel_size).map
            (fun out => [out]) ∧
      main_single_process n_max x_center y_center nx ny init_pixel_size zoom 1
        = ((alloc_pixels (nx * ny)).bind
            (generate_frame n_max x_center y_center nx ny init_pixel_size)).map
            (fun out => [out]) ∧
      worker_process n_max x_center y_center nx ny init_pixel_size zoom store_images
          (1 :: -1 :: post)
        = ((alloc_pixels (nx * ny)).bind
            (generate_frame n_max x_center y_center nx ny init_pixel_size)).map
            (fun out => ⟨worker_report store_images 1 out, out, post, true⟩) :=
  ⟨current_pixel_size_one _ _, current_pixel_size_one _ _,
    serial_main_one n_max x_center y_center nx ny init_pixel_size zoom,
    main_single_process_first n_max x_center y_center nx ny init_pixel_size zoom,
    worker_process_first n_max x_center y_center nx ny init_pixel_size zoom store_images post⟩

/-! ## Colour map: gradient and channel ranges -/

/-- The function `get_color` is the sentinel test followed by the gradient. -/
theorem get_color_eq_gradient (iterations max_iterations : Int) :
    get_color iterations max_iterations
      = if iterations = max_iterations then some ⟨0, 0, 0⟩
        else gradient_color iterations max_iterations := rfl

theorem static_cast_uchar_zero : static_cast_uchar 0 = some 0 := by
  have hc : (-1 : ℚ) < 0 ∧ (0 : ℚ) < 256 := by norm_num
  rw [static_cast_uchar, if_pos hc]
  simp

/-- C15, the claim refuted: at `t = 1` the three channel expressions are all `0`, so the
triple they give is `(0, 0, 0)` and not a different one; the statements after the
sentinel test, run on count 1 with bound 1, return exactly black. -/
theorem gradient_at_one_is_black :
    (channel_r 1, channel_g 1, channel_b 1) = (0, 0, 0) ∧
      ¬ ((channel_r 1, channel_g 1, channel_b 1) ≠ (0, 0, 0)) ∧
      gradient_color 1 1 = some ⟨0, 0, 0⟩ := by
  have h : (channel_r 1, channel_g 1, channel_b 1) = (0, 0, 0) := by
    norm_num [channel_r, channel_g, channel_b]
  refine ⟨h, fun hne => hne h, ?_⟩
  have hr : channel_r (((1 : Int) : ℚ) / ((1 : Int) : ℚ)) = 0 := by norm_num [channel_r]
  have hg : channel_g (((1 : Int) : ℚ) / ((1 : Int) : ℚ)) = 0 := by norm_num [channel_g]
  have hb : channel_b (((1 : Int) : ℚ) / ((1 : Int) : ℚ)) = 0 := by norm_num [channel_b]
  have h1 : ¬ ((1 : Int) = 0) := by decide
  rw [gradient_color, if_neg h1]
  simp only [hr, hg, hb, static_cast_uchar_zero]

/-- C15 as amended. For every bound `M ≠ 0` the fraction at count `M` is `t = 1`, where
the three channel expressions are `0`, and the statements of `get_color` after the
sentinel test return exactly `(0, 0, 0)` on count `M`: the same value as the special
case. For bound `0` those statements are undefined, and `get_color` is the special case
followed by them. -/
theorem gradient_black_at_bound (M : Int) (hM : M ≠ 0) :
    ((M : ℚ) / (M : ℚ) = 1) ∧
      channel_r 1 = 0 ∧ channel_g 1 = 0 ∧ channel_b 1 = 0 ∧
      gradient_color M M = some ⟨0, 0, 0⟩ ∧
      gradient_color 0 0 = none ∧
      ∀ i : Int, get_color i M
        = if i = M then some ⟨0, 0, 0⟩ else gradient_color i M := by
  have hq : (M : ℚ) ≠ 0 := by exact_mod_cast hM
  have ht : (M : ℚ) / (M : ℚ) = 1 := div_self hq
  have hr : channel_r 1 = 0 := by norm_num [channel_r]
  have hg : channel_g 1 = 0 := by norm_num [channel_g]
  have hb : channel_b 1 = 0 := by norm_num [channel_b]
  refine ⟨ht, hr, hg, hb, ?_, ?_, fun i => get_color_eq_gradient i M⟩
  · rw [gradient_color, if_neg hM]
    simp only [ht, hr, hg, hb, static_cast_uchar_zero]
  · rw [gradient_color, if_pos rfl]

/-- C15 as amended, at bound 100. -/
theorem gradient_black_at_bound_witness :
    (100 : Int) ≠ 0 ∧ gradient_color 100 100 = some ⟨0, 0, 0⟩ :=
  ⟨by decide, (gradient_black_at_bound 100 (by decide)).2.2.2.2.1⟩

theorem static_cast_uchar_le {v : ℚ} {n : Nat} (h : static_cast_uchar v = some n) :
    n ≤ 255 := by
  unfold static_cast_uchar at h
  split at h
  · rename_i hc
    simp only [Option.some.injEq] at h
    have hf : ⌊v⌋ < 256 := Int.floor_lt.mpr (by exact_mod_cast hc.2)
    omega
  · exact absurd h (by simp)

/-- Every colour `get_color` returns has its three channels in `0..255`. -/
theorem get_color_channels_le {iterations max_iterations : Int} {c : RGB}
    (h : get_color iterations max_iterations = some c) :
    c.r ≤ 255 ∧ c.g ≤ 255 ∧ c.b ≤ 255 := by
  rw [get_color_eq_gradient] at h
  split at h
  · simp only [Option.some.injEq] at h
    subst h
    exact ⟨by decide, by decide, by decide⟩
  · unfold gradient_color at h
    split at h
    · exact absurd h (by simp)
    · simp only at h
      split at h
      · rename_i r g b hr hg hb
        simp only [Option.some.injEq] at h
        subst h
        exact ⟨static_cast_uchar_le hr, static_cast_uchar_le hg, static_cast_uchar_le hb⟩
      · exact absurd h (by simp)

/-- Every index of a buffer of length `nx * ny` is the row-major index of a pixel. -/
theorem row_major_index (nx ny i : Nat) (h : i < ny * nx) :
    ∃ px py : Nat, px < nx ∧ py < ny ∧ i = py * nx + px := by
  have hnx : 0 < nx := by
    rcases Nat.eq_zero_or_pos nx with h0 | h0
    · rw [h0, Nat.mul_zero] at h; exact absurd h (Nat.not_lt_zero i)
    · exact h0
  refine ⟨i % nx, i / nx, Nat.mod_lt i hnx, ?_, ?_⟩
  · exact (Nat.div_lt_iff_lt_mul hnx).mpr h
  · have := Nat.div_add_mod i nx
    rw [Nat.mul_comm] at this
    exact this.symm

/-- Every entry of a rendered buffer is the colour `get_color` returns for some pixel. -/
theorem generate_frame_entries (n_max : Int) (x_center y_center : ℚ) (nx ny : Int)
    (pixel_size : ℚ) (pixels out : List RGB) (hnx : 0 ≤ nx) (hny : 0 ≤ ny)
    (hlen : (pixels.length : Int) = nx * ny)
    (hout : generate_frame n_max x_center y_center nx ny pixel_size pixels = some out)
    (c : RGB) (hc : c ∈ out) :
    ∃ iterations : Int, get_color iterations n_max = some c := by
  obtain ⟨out2, hout2, hlen2, hpix⟩ :=
    generate_frame_spec n_max x_center y_center nx ny pixel_size pixels hnx hny hlen
  rw [hout] at hout2
  simp only [Option.some.injEq] at hout2
  subst hout2
  obtain ⟨i, hi⟩ := List.mem_iff_getElem?.mp hc
  have hi_lt : i < out.length := by
    by_contra hge
    rw [List.getElem?_eq_none (not_lt.mp hge)] at hi
    exact absurd hi (by simp)
  have hl : out.length = ny.toNat * nx.toNat := by
    have h1 : ((ny.toNat * nx.toNat : Nat) : Int) = nx * ny := by
      push_cast
      rw [Int.toNat_of_nonneg hnx, Int.toNat_of_nonneg hny, mul_comm]
    exact_mod_cast hlen2.trans h1.symm
  obtain ⟨px, py, hpx, hpy, hidx⟩ := row_major_index nx.toNat ny.toNat i (hl ▸ hi_lt)
  have h := hpix px py (by omega) (by omega)
  rw [← hidx, hi] at h
  exact ⟨_, h.symm⟩

/-- C18. For every bound `M ≥ 1` and every count `0 ≤ i < M`, with `t = i / M` in exact
arithmetic, each of the three channel values converted by `get_color` lies in
`[0, 256)`; the conversions are therefore defined, `get_color(i, M)` is the triple of
their integer parts, each at most 255; and every entry of a buffer rendered by
`generate_frame` with bound `M` has its three channels in `0..255`. -/
theorem channel_values_in_range (M i : Int) (hM : 1 ≤ M) (hi0 : 0 ≤ i) (hi : i < M) :
    (0 ≤ channel_r ((i : ℚ) / (M : ℚ)) ∧ channel_r ((i : ℚ) / (M : ℚ)) < 256) ∧
      (0 ≤ channel_g ((i : ℚ) / (M : ℚ)) ∧ channel_g ((i : ℚ) / (M : ℚ)) < 256) ∧
      (0 ≤ channel_b ((i : ℚ) / (M : ℚ)) ∧ channel_b ((i : ℚ) / (M : ℚ)) < 256) ∧
      get_color i M = some ⟨Int.toNat ⌊channel_r ((i : ℚ) / (M : ℚ))⌋,
        Int.toNat ⌊channel_g ((i : ℚ) / (M : ℚ))⌋,
        Int.toNat ⌊channel_b ((i : ℚ) / (M : ℚ))⌋⟩ ∧
      Int.toNat ⌊channel_r ((i : ℚ) / (M : ℚ))⌋ ≤ 255 ∧
      Int.toNat ⌊channel_g ((i : ℚ) / (M : ℚ))⌋ ≤ 255 ∧
      Int.toNat ⌊channel_b ((i : ℚ) / (M : ℚ))⌋ ≤ 255 ∧
      ∀ (x_center y_center pixel_size : ℚ) (nx ny : Int) (pixels out : List RGB),
        0 ≤ nx → 0 ≤ ny → (pixels.length : Int) = nx * ny →
        generate_frame M x_center y_center nx ny pixel_size pixels = some out →
        ∀ c ∈ out, c.r ≤ 255 ∧ c.g ≤ 255 ∧ c.b ≤ 255 := by
  have hq : (0 : ℚ) < (M : ℚ) := by exact_mod_cast (by omega : (0 : Int) < M)
  have ht0 : 0 ≤ (i : ℚ) / (M : ℚ) := div_nonneg (by exact_mod_cast hi0) (le_of_lt hq)
  have ht1 : (i : ℚ) / (M : ℚ) ≤ 1 := by
    rw [div_le_one hq]
    exact_mod_cast le_of_lt hi
  have hr := channel_r_range _ ht0 ht1
  have hg := channel_g_range _ ht0 ht1
  have hb := channel_b_range _ ht0 ht1
  have cr : (-1 : ℚ) < channel_r ((i : ℚ) / (M : ℚ)) ∧
      channel_r ((i : ℚ) / (M : ℚ)) < 256 := ⟨by linarith [hr.1], hr.2⟩
  have cg : (-1 : ℚ) < channel_g ((i : ℚ) / (M : ℚ)) ∧
      channel_g ((i : ℚ) / (M : ℚ)) < 256 := ⟨by linarith [hg.1], hg.2⟩
  have cb : (-1 : ℚ) < channel_b ((i : ℚ) / (M : ℚ)) ∧
      channel_b ((i : ℚ) / (M : ℚ)) < 256 := ⟨by linarith [hb.1], hb.2⟩
  have hne : ¬ i = M := by omega
  have hM0 : ¬ M = 0 := by omega
  have hcol : get_color i M = some ⟨Int.toNat ⌊channel_r ((i : ℚ) / (M : ℚ))⌋,
      Int.toNat ⌊channel_g ((i : ℚ) / (M : ℚ))⌋,
      Int.toNat ⌊channel_b ((i : ℚ) / (M : ℚ))⌋⟩ := by
    rw [get_color, if_neg hne, if_neg hM0]
    simp only [static_cast_uchar, if_pos cr, if_pos cg, if_pos cb]
  obtain ⟨h1, h2, h3⟩ := get_color_channels_le hcol
  refine ⟨hr, hg, hb, hcol, h1, h2, h3, ?_⟩
  intro x_center y_center pixel_size nx ny pixels out hnx hny hlen hout c hc
  obtain ⟨it, hit⟩ := generate_frame_entries M x_center y_center nx ny pixel_size pixels out
    hnx hny hlen hout c hc
  exact get_color_channels_le hit

/-- C18 at bound 4 and count 3, where `t = 3/4`. -/
theorem channel_values_in_range_witness :
    (1 : Int) ≤ 4 ∧ (0 : Int) ≤ 3 ∧ (3 : Int) < 4 ∧
      (0 ≤ channel_r (((3 : Int) : ℚ) / ((4 : Int) : ℚ)) ∧
        channel_r (((3 : Int) : ℚ) / ((4 : Int) : ℚ)) < 256) :=
  ⟨by decide, by decide, by decide,
    (channel_values_in_range 4 3 (by decide) (by decide) (by decide)).1⟩

/-! ## Escape-time kernel: truncation and conjugation -/

/-- C19. For every point `(cx, cy)` and all bounds `0 ≤ M ≤ M2`,
`mandelbrot_iterations(cx, cy, M)` is the minimum of `M` and
`mandelbrot_iterations(cx, cy, M2)`; in particular the result does not decrease when
the bound grows. -/
theorem mandelbrot_iterations_truncates (cx cy : ℚ) (M M2 : Int) (hM : 0 ≤ M)
    (hMM : M ≤ M2) :
    mandelbrot_iterations cx cy M = min M (mandelbrot_iterations cx cy M2) ∧
      mandelbrot_iterations cx cy M ≤ mandelbrot_iterations cx cy M2 := by
  obtain ⟨r, hr, _, hle, hbefore, hexit⟩ := mandelbrot_iterations_spec cx cy M hM
  obtain ⟨r2, hr2, _, hle2, hbefore2, hexit2⟩ :=
    mandelbrot_iterations_spec cx cy M2 (le_trans hM hMM)
  rw [hr, hr2]
  have key : (r : Int) = min M (r2 : Int) := by
    by_cases hlt : (r : Int) < M
    · have hesc : ¬ norm_sq (orbit cx cy r) ≤ 4 := fun h => hexit ⟨h, hlt⟩
      have h1 : ¬ r < r2 := fun h => hesc (hbefore2 r h)
      have h2 : ¬ r2 < r := by
        intro h
        exact hexit2 ⟨hbefore r2 h, by omega⟩
      have : r = r2 := by omega
      rw [← this]
      exact (min_eq_right (le_of_lt hlt)).symm
    · have hrM : (r : Int) = M := by omega
      have h2 : ¬ r2 < r := by
        intro h
        exact hexit2 ⟨hbefore r2 h, by omega⟩
      rw [hrM]
      exact (min_eq_left (by omega)).symm
  exact ⟨key, by rw [key]; exact min_le_right _ _⟩

/-- C19 at the point `(2, 0)` with bounds 1 and 5. -/
theorem mandelbrot_iterations_truncates_witness :
    (0 : Int) ≤ 1 ∧ (1 : Int) ≤ 5 ∧
      mandelbrot_iterations 2 0 1 = min 1 (mandelbrot_iterations 2 0 5) :=
  ⟨by decide, by decide, (mandelbrot_iterations_truncates 2 0 1 5 (by decide) (by decide)).1⟩

/-- Conjugating the point and the loop state conjugates the state in which the loop
stops and leaves the count unchanged. -/
theorem mandelbrot_loop_conj (cx cy : ℚ) (max_iter : Int) (fuel : Nat) :
    ∀ (z : ℚ × ℚ) (iter : Int),
      mandelbrot_loop cx (-cy) max_iter fuel (z.1, -z.2) iter
        = (((mandelbrot_loop cx cy max_iter fuel z iter).1.1,
            -(mandelbrot_loop cx cy max_iter fuel z iter).1.2),
            (mandelbrot_loop cx cy max_iter fuel z iter).2) := by
  induction fuel with
  | zero => intro z iter; rfl
  | succ fuel ih =>
    intro z iter
    have hbody : mandelbrot_body cx (-cy) (z.1, -z.2)
        = ((mandelbrot_body cx cy z).1, -(mandelbrot_body cx cy z).2) := by
      simp only [mandelbrot_body, Prod.mk.injEq]
      constructor <;> ring
    by_cases hc : z.1 * z.1 + z.2 * z.2 ≤ 4 ∧ iter < max_iter
    · have hc2 : z.1 * z.1 + -z.2 * -z.2 ≤ 4 ∧ iter < max_iter := by
        rw [neg_mul_neg]; exact hc
      rw [mandelbrot_loop, if_pos hc2, hbody, ih]
      simp only [mandelbrot_loop, if_pos hc]
    · have hc2 : ¬ (z.1 * z.1 + -z.2 * -z.2 ≤ 4 ∧ iter < max_iter) := by
        rw [neg_mul_neg]; exact hc
      rw [mandelbrot_loop, if_neg hc2]
      simp only [mandelbrot_loop, if_neg hc]

/-- C20. For every point `(cx, cy)` and every bound, `mandelbrot_iterations` returns the
same count at the conjugate point `(cx, -cy)`. -/
theorem mandelbrot_iterations_conj (cx cy : ℚ) (max_iter : Int) :
    mandelbrot_iterations cx (-cy) max_iter = mandelbrot_iterations cx cy max_iter := by
  unfold mandelbrot_iterations
  have h := mandelbrot_loop_conj cx cy max_iter max_iter.toNat (0, 0) 0
  simp only [neg_zero] at h
  rw [h]

/-! ## Coordinator: the reply to a completion -/

/-- The message the reply sends and what it does to the frame counter. -/
theorem master_reply_sent (n_frames : Int) (s : MasterState) (worker : Int) :
    (master_reply n_frames s worker).sent
        = s.sent ++ [(worker, if s.next_frame ≤ n_frames then s.next_frame else -1)] ∧
      (master_reply n_frames s worker).next_frame
        = (if s.next_frame ≤ n_frames then s.next_frame + 1 else s.next_frame) ∧
      (master_reply n_frames s worker).received = s.received := by
  by_cases h : s.next_frame ≤ n_frames
  · simp [master_reply, mpi_send_task, h]
  · simp [master_reply, mpi_send_task, h]

/-- C16. In every state of `master_process` reached after priming (with `n_frames ≥ 1`
frames, `num_workers ≥ 1` workers, any order of reports), a loop iteration that receives
the completion of worker `source` finds that worker holding the reported frame, logs that
frame, and sends exactly one tag-0 message, addressed to `source`: the frame index
`next_frame` when `next_frame ≤ n_frames`, which is one more than the number of frames
assigned so far, and the sentinel `-1` otherwise. Nothing else is sent. -/
theorem master_replies_to_reporter (n_frames num_workers : Int) (hN : 1 ≤ n_frames)
    (hW : 1 ≤ num_workers) (order : List Int) (s s2 : MasterState) (source : Int)
    (hrun : master_run n_frames num_workers order = some s)
    (hstep : master_step n_frames s source = some s2) :
    ∃ frame_done : Int, (source, frame_done) ∈ s.in_flight ∧
      s2.received = s.received ++ [frame_done] ∧
      s2.sent = s.sent ++ [(source, if s.next_frame ≤ n_frames then s.next_frame else -1)] ∧
      s2.sent.length = s.sent.length + 1 ∧
      s2.next_frame = (if s.next_frame ≤ n_frames then s.next_frame + 1 else s.next_frame) ∧
      s.next_frame = ((assignments s).length : Int) + 1 ∧
      master_run n_frames num_workers (order ++ [source]) = some s2 := by
  obtain ⟨⟨k, hinv⟩, _⟩ := masterInv_run hN hW hrun
  obtain ⟨_, f, s1, hrecv, hs2⟩ := master_step_spec hstep
  obtain ⟨p, hp, hp1, hp2, hs1⟩ := mpi_recv_completion_spec hrecv
  have e1 : s1.next_frame = s.next_frame := by rw [hs1]
  have e3 : s1.sent = s.sent := by rw [hs1]
  have e4 : s1.received = s.received ++ [f] := by rw [hs1]
  obtain ⟨hsent, hnext, hrec⟩ := master_reply_sent n_frames s1 source
  rw [← hs2, e1, e3] at hsent
  rw [← hs2, e1] at hnext
  rw [← hs2, e4] at hrec
  refine ⟨f, ?_, hrec, hsent, ?_, hnext, ?_, ?_⟩
  · have : p = (source, f) := by rw [← hp1, ← hp2]
    rw [← this]; exact hp
  · rw [hsent]; simp
  · rw [hinv.next, hinv.assigned, frames_upto_length]
  · unfold master_run at hrun ⊢
    rw [List.foldlM_append, hrun]
    simp [hstep]

/-- C16 at 3 frames and 2 workers: right after priming worker 2 reports frame 2 and is
sent frame 3. -/
theorem master_replies_to_reporter_witness :
    (1 : Int) ≤ 3 ∧ (1 : Int) ≤ 2 ∧
      master_run 3 2 [] = some ⟨3, 0, [(1, 1), (2, 2)], [], [(1, 1), (2, 2)]⟩ ∧
      master_step 3 ⟨3, 0, [(1, 1), (2, 2)], [], [(1, 1), (2, 2)]⟩ 2
        = some ⟨4, 1, [(1, 1), (2, 2), (2, 3)], [2], [(1, 1), (2, 3)]⟩ ∧
      ∃ frame_done : Int,
        (2, frame_done) ∈ (⟨3, 0, [(1, 1), (2, 2)], [], [(1, 1), (2, 2)]⟩ : MasterState).in_flight ∧
        (⟨4, 1, [(1, 1), (2, 2), (2, 3)], [2], [(1, 1), (2, 3)]⟩ : MasterState).received
          = (⟨3, 0, [(1, 1), (2, 2)], [], [(1, 1), (2, 2)]⟩ : MasterState).received
              ++ [frame_done] :=
  ⟨by decide, by decide, by decide, by decide,
    (master_replies_to_reporter 3 2 (by decide) (by decide) []
      ⟨3, 0, [(1, 1), (2, 2)], [], [(1, 1), (2, 2)]⟩
      ⟨4, 1, [(1, 1), (2, 2), (2, 3)], [2], [(1, 1), (2, 3)]⟩ 2 (by decide) (by decide)).imp
      (fun _ h => ⟨h.1, h.2.1⟩)⟩

/-! ## Frame renderer: reused and fresh buffers -/

end Mandelbrot
